import Mathlib

/-!
A formal model of `src/execution/IncrementalPublisher.js` (graphql-js
incremental delivery).  JavaScript `Set`s are modelled as duplicate-free
lists kept in insertion order; records live in an array and are referred to
by their index, which plays the role of JavaScript object identity; the
asynchronous parts (`_signalled` / `_trigger` / `await`) are modelled by a
wake counter together with an explicit `DrainOutcome.wait` value marking the
point where the consumer suspends on the notify mechanism.  Error payloads,
`data` payloads and stream items are abstracted to natural numbers; `none`
stands for JavaScript `null`/`undefined` payloads.
-/

/-- A path segment produced by `pathToArray`: a response key or a list
index. -/
inductive Seg where
  | key (s : String)
  | idx (n : Nat)
deriving DecidableEq, Repr

/-- Model of `_matchesPath(testPath, basePath)`: compare position by position over the
indices of `basePath`; an out-of-range read of `testPath` (`undefined` in
JavaScript) never equals a segment, so a shorter `testPath` fails. -/
def matchesPath (testPath basePath : List Seg) : Bool :=
  (List.range basePath.length).all fun i => testPath[i]? == basePath[i]?

/-- An incremental data record.  `isStream` discriminates
`StreamItemsRecord` from `DeferredFragmentRecord`; the stream-only fields
are inert on deferred records. -/
structure Rec where
  isStream : Bool := false
  label : Option String := none
  path : List Seg := []
  parentContext : Option Nat := none
  errors : List Nat := []
  children : List Nat := []
  isCompleted : Bool := false
  data : Option Nat := none
  items : Option (List Nat) := none
  asyncIterator : Option Nat := none
  isCompletedAsyncIterator : Bool := false
deriving DecidableEq, Repr, Inhabited

/-- The mutable state of one `IncrementalPublisher`.  `triggers` counts the
calls to `_trigger` (each resolves and resets the `_signalled` promise). -/
structure PubState where
  recs : List Rec := []
  rootChildren : List Nat := []
  released : List Nat := []
  pending : List Nat := []
  triggers : Nat := 0
deriving DecidableEq, Repr, Inhabited

/-- JavaScript `Set.add`: no duplicates, insertion order kept. -/
def setAdd (l : List Nat) (x : Nat) : List Nat :=
  if x ∈ l then l else l ++ [x]

/-- JavaScript `Set.delete`. -/
def setDel (l : List Nat) (x : Nat) : List Nat :=
  l.filter fun y => y ≠ x

namespace IncrementalPublisher

/-- Dereference a record id (JavaScript object identity). -/
def getRec (s : PubState) (i : Nat) : Rec :=
  (s.recs[i]?).getD default

/-- Mutate the record behind an id in place. -/
def modRec (s : PubState) (i : Nat) (f : Rec → Rec) : PubState :=
  { s with recs := s.recs.set i (f (getRec s i)) }

/-- Model of `hasNext()`: `this._pending.size > 0`. -/
def hasNext (s : PubState) : Bool :=
  s.pending.length > 0

/-- Model of `_trigger()`: resolve the signal and reset it; modelled as one wake. -/
def trigger (s : PubState) : PubState :=
  { s with triggers := s.triggers + 1 }

/-- Model of `_introduce(item)`. -/
def introduce (s : PubState) (item : Nat) : PubState :=
  { s with pending := setAdd s.pending item }

/-- Model of `_release(item)`: only if the item is currently pending. -/
def release (s : PubState) (item : Nat) : PubState :=
  if item ∈ s.pending then trigger { s with released := setAdd s.released item }
  else s

/-- Model of `_push(item)`. -/
def push (s : PubState) (item : Nat) : PubState :=
  trigger { s with released := setAdd s.released item
                   pending := setAdd s.pending item }

/-- Model of `_delete(item)`. -/
def delete (s : PubState) (item : Nat) : PubState :=
  trigger { s with released := setDel s.released item
                   pending := setDel s.pending item }

/-- Model of `_publish(incrementalDataRecord)`. -/
def publish (s : PubState) (r : Nat) : PubState :=
  if (getRec s r).isCompleted then push s r else introduce s r

/-- Attach a fresh record id to its parent's `children` set, or to
`_initialResult.children` when it has no parent context. -/
def registerChild (s : PubState) (parentContext : Option Nat) (id : Nat) :
    PubState :=
  match parentContext with
  | some p => modRec s p fun r => { r with children := setAdd r.children id }
  | none => { s with rootChildren := setAdd s.rootChildren id }

/-- Model of `prepareNewDeferredFragmentRecord(opts)`; returns the new id. -/
def prepareNewDeferredFragmentRecord (s : PubState) (label : Option String)
    (path : List Seg) (parentContext : Option Nat) : PubState × Nat :=
  let id := s.recs.length
  let r0 : Rec := {
    isStream := false
    label := label
    path := path
    parentContext := parentContext
    errors := []
    children := []
    isCompleted := false
    data := none
    items := none
    asyncIterator := none
    isCompletedAsyncIterator := false }
  (registerChild { s with recs := s.recs ++ [r0] } parentContext id, id)

/-- Model of `prepareNewStreamItemsRecord(opts)`; returns the new id. -/
def prepareNewStreamItemsRecord (s : PubState) (label : Option String)
    (path : List Seg) (parentContext : Option Nat)
    (asyncIterator : Option Nat) : PubState × Nat :=
  let id := s.recs.length
  let r0 : Rec := {
    isStream := true
    label := label
    path := path
    parentContext := parentContext
    errors := []
    children := []
    isCompleted := false
    data := none
    items := none
    asyncIterator := asyncIterator
    isCompletedAsyncIterator := false }
  (registerChild { s with recs := s.recs ++ [r0] } parentContext id, id)

/-- Model of `completeDeferredFragmentRecord(record, data)`. -/
def completeDeferredFragmentRecord (s : PubState) (r : Nat)
    (data : Option Nat) : PubState :=
  release (modRec s r fun rc => { rc with data := data, isCompleted := true }) r

/-- Model of `completeStreamItemsRecord(record, items)`. -/
def completeStreamItemsRecord (s : PubState) (r : Nat)
    (items : Option (List Nat)) : PubState :=
  release (modRec s r fun rc => { rc with items := items, isCompleted := true }) r

/-- Model of `setIsCompletedAsyncIterator(streamItemsRecord)`. -/
def setIsCompletedAsyncIterator (s : PubState) (r : Nat) : PubState :=
  modRec s r fun rc => { rc with isCompletedAsyncIterator := true }

/-- Model of `addFieldError(record, error)`. -/
def addFieldError (s : PubState) (r : Nat) (e : Nat) : PubState :=
  modRec s r fun rc => { rc with errors := rc.errors ++ [e] }

/-- Model of `publishInitial()`. -/
def publishInitial (s : PubState) : PubState :=
  s.rootChildren.foldl publish s

/-- Model of `_getDescendants(children, descendants)` as a worklist traversal in
depth-first preorder; the fuel argument only makes the JavaScript recursion
total in Lean and is generous enough for every forest-shaped state. -/
def getDescendantsAux (s : PubState) : Nat → List Nat → List Nat → List Nat
  | 0, _, acc => acc
  | _ + 1, [], acc => acc
  | fuel + 1, id :: rest, acc =>
    getDescendantsAux s fuel ((getRec s id).children ++ rest) (setAdd acc id)

/-- Model of `_getDescendants(children)`. -/
def getDescendants (s : PubState) (children : List Nat) : List Nat :=
  getDescendantsAux s ((s.recs.length + 1) * (s.recs.length + 1)) children []

/-- The loop body of `filter`: test the path, `_delete`, detach from the
parent's children set, collect the live stream source, in source order. -/
def filterStep (nullPathArray : List Seg) (acc : PubState × List Nat)
    (child : Nat) : PubState × List Nat :=
  let s := acc.1
  let its := acc.2
  if matchesPath (getRec s child).path nullPathArray then
    let s1 := delete s child
    let s2 :=
      match (getRec s1 child).parentContext with
      | none => { s1 with rootChildren := setDel s1.rootChildren child }
      | some p => modRec s1 p fun r => { r with children := setDel r.children child }
    let its2 :=
      if (getRec s2 child).isStream then
        match (getRec s2 child).asyncIterator with
        | some it => setAdd its it
        | none => its
      else its
    (s2, its2)
  else (s, its)

/-- The children set that seeds the `filter` traversal. -/
def filterChildrenOf (s : PubState) (origin : Option Nat) : List Nat :=
  match origin with
  | none => s.rootChildren
  | some r => (getRec s r).children

/-- Model of `filter(nullPath, erroringIncrementalDataRecord)`: returns the new state
together with the collected `asyncIterators` set (in insertion order). -/
def filter (s : PubState) (nullPath : List Seg) (origin : Option Nat) :
    PubState × List Nat :=
  (getDescendants s (filterChildrenOf s origin)).foldl
    (filterStep nullPath) (s, [])

/-- The behaviour of `asyncIterator.return` for each source handle: `none`
when the iterator has no `return` method (so `return?.()` is skipped),
otherwise the settled outcome of the promise returned by `return()`. -/
def ReturnEnv : Type :=
  Nat → Option (Except Nat Unit)

/-- A promise chain `p.catch(() => ignore)`: rejections are swallowed. -/
def catchIgnore (r : Except Nat Unit) : Except Nat Unit :=
  match r with
  | .ok _ => .ok ()
  | .error _ => .ok ()

/-- The settled outcomes of the fire-and-forget chains started by
`filter`: `asyncIterator.return?.().catch(() => ignore)` for each collected
iterator. -/
def filterCancelOutcomes (env : ReturnEnv) (its : List Nat) :
    List (Except Nat Unit) :=
  its.filterMap fun it => (env it).map catchIgnore

/-- The `return()` calls actually issued by the `filter` engine (those
iterators of the collected set that do have a `return` method). -/
def filterReturnCalls (env : ReturnEnv) (its : List Nat) : List Nat :=
  its.filter fun it => (env it).isSome

/-- Model of `Promise.all`: the first rejection wins, otherwise fulfilment. -/
def promiseAll (ps : List (Except Nat Unit)) : Except Nat Unit :=
  ps.foldr (fun p acc => match p with | .error e => .error e | .ok _ => acc)
    (.ok ())

/-- The promises collected by `returnStreamIterators()`: one per pending
stream record whose `asyncIterator?.return` exists. -/
def pendingReturnOutcomes (env : ReturnEnv) (s : PubState) :
    List (Except Nat Unit) :=
  s.pending.filterMap fun rid =>
    let rc := getRec s rid
    if rc.isStream then
      match rc.asyncIterator with
      | some it => env it
      | none => none
    else none

/-- Model of `_return()`: sets `isDone`, awaits `returnStreamIterators()` with no
handler, then resolves with the done signal.  `Except.error e` means the
call rejected with `e` in the caller. -/
def iterReturnResult (env : ReturnEnv) (s : PubState) : Except Nat Bool :=
  match promiseAll (pendingReturnOutcomes env s) with
  | .error e => .error e
  | .ok _ => .ok true

/-- Model of `_throw(error)`: sets `isDone`, awaits `returnStreamIterators()` with no
handler, then rejects with the given error.  The result is the error that
actually reaches the caller. -/
def iterThrowError (env : ReturnEnv) (s : PubState) (error : Nat) : Nat :=
  match promiseAll (pendingReturnOutcomes env s) with
  | .error e => e
  | .ok _ => error

/-- The payload of one entry of an `incremental` frame: `data` for a
deferred fragment (`data ?? null`), `items` for a stream record. -/
inductive Payload where
  | data (d : Option Nat)
  | items (it : Option (List Nat))
deriving DecidableEq, Repr

/-- One element of the `incremental` list of an output frame. -/
structure Entry where
  path : List Seg
  label : Option String
  errors : List Nat
  payload : Payload
deriving DecidableEq, Repr

/-- A value yielded to the consumer: either
`(incremental entries, hasNext)` or the pure has-next-false object. -/
inductive Frame where
  | incr (entries : List Entry) (more : Bool)
  | doneOnly
deriving DecidableEq, Repr

/-- The `hasNext` field reported by a frame. -/
def frameMore : Frame → Bool
  | .incr _ m => m
  | .doneOnly => false

/-- The entry `_getIncrementalResult` builds for one non-skipped record. -/
def mkEntry (s : PubState) (r : Nat) : Entry :=
  let rc := getRec s r
  { path := rc.path
    label := rc.label
    errors := rc.errors
    payload := if rc.isStream then .items rc.items else .data rc.data }

/-- The accumulator of the loop inside `_getIncrementalResult`. -/
structure GirAcc where
  s : PubState
  results : List Entry
  encountered : Bool
deriving DecidableEq, Repr

/-- Model of `for (const child of record.children) this._publish(child)`. -/
def publishChildren (s : PubState) (r : Nat) : PubState :=
  (getRec s r).children.foldl publish s

/-- One iteration of the loop of `_getIncrementalResult`: publish the
children, then either skip an exhausted stream record (recording that one
was encountered) or append its entry. -/
def girStep (acc : GirAcc) (rid : Nat) : GirAcc :=
  let s := publishChildren acc.s rid
  let rc := getRec s rid
  if rc.isStream && rc.isCompletedAsyncIterator then
    { s := s, results := acc.results, encountered := true }
  else
    { s := s, results := acc.results ++ [mkEntry s rid]
      encountered := acc.encountered }

/-- Model of `_getIncrementalResult(completedRecords)`: the optional frame and the
state after publishing the children of the batch. -/
def getIncrementalResult (s : PubState) (completedRecords : List Nat) :
    Option Frame × PubState :=
  let acc := completedRecords.foldl girStep
    { s := s, results := [], encountered := false }
  (if acc.results.length > 0 then some (.incr acc.results (hasNext acc.s))
   else if acc.encountered && !hasNext acc.s then some .doneOnly
   else none,
   acc.s)

/-- What one pass of the loop body of `_next` does before the next
suspension point. -/
inductive DrainOutcome where
  | done
  | frame (f : Frame)
  | wait
deriving DecidableEq, Repr

/-- One pass of the loop body of `_next`, from the top of the loop to the
point where it either returns or reaches `await this._signalled`:
`(outcome, batch, new state, new isDone)`.  `wait` means the consumer
suspends on the notify mechanism with nothing returned. -/
def drainPass (s : PubState) (isDone : Bool) :
    DrainOutcome × List Nat × PubState × Bool :=
  if isDone then (.done, [], s, true)
  else
    let pending1 := s.released.foldl setDel s.pending
    let batch := s.released
    let s1 := { s with pending := pending1, released := [] }
    let rs := getIncrementalResult s1 batch
    let out :=
      match rs.1 with
      | some f => DrainOutcome.frame f
      | none => DrainOutcome.wait
    (out, batch, rs.2, !hasNext rs.2)

end IncrementalPublisher

open IncrementalPublisher

/-- One call of the collaborator or consumer API, the serialized atomic
steps of the cooperative scheduling model. -/
inductive Op where
  | prepDeferred (label : Option String) (path : List Seg) (parent : Option Nat)
  | prepStream (label : Option String) (path : List Seg) (parent : Option Nat)
      (src : Option Nat)
  | completeDeferred (r : Nat) (data : Option Nat)
  | completeStream (r : Nat) (items : Option (List Nat))
  | setExhausted (r : Nat)
  | addError (r : Nat) (e : Nat)
  | publishInit
  | doFilter (nullPath : List Seg) (origin : Option Nat)
  | drain
deriving DecidableEq, Repr

/-- The publisher state together with the consumer-side `isDone` flag and
two pieces of history: whether `publishInitial` has run (the collaborator
calls it exactly once), and the ghost list `drained` of all records ever
captured in a drain batch, in drain order. -/
structure Sys where
  pub : PubState := {}
  initDone : Bool := false
  drained : List Nat := []
  isDone : Bool := false
deriving DecidableEq, Repr, Inhabited

/-- A record reference passed in by the collaborator must denote an
existing record. -/
def validRef (s : PubState) (r : Option Nat) : Bool :=
  match r with
  | none => true
  | some p => p < s.recs.length

/-- The effect of one API call; `none` when the call violates the caller
contract (a dangling record reference, or a second `publishInitial`). -/
def applyOp (σ : Sys) : Op → Option Sys
  | .prepDeferred label path parent =>
    if validRef σ.pub parent then
      some { σ with
        pub := (prepareNewDeferredFragmentRecord σ.pub label path parent).1 }
    else none
  | .prepStream label path parent src =>
    if validRef σ.pub parent then
      some { σ with
        pub := (prepareNewStreamItemsRecord σ.pub label path parent src).1 }
    else none
  | .completeDeferred r d =>
    if r < σ.pub.recs.length then
      some { σ with pub := completeDeferredFragmentRecord σ.pub r d }
    else none
  | .completeStream r it =>
    if r < σ.pub.recs.length then
      some { σ with pub := completeStreamItemsRecord σ.pub r it }
    else none
  | .setExhausted r =>
    if r < σ.pub.recs.length then
      some { σ with pub := setIsCompletedAsyncIterator σ.pub r }
    else none
  | .addError r e =>
    if r < σ.pub.recs.length then
      some { σ with pub := addFieldError σ.pub r e }
    else none
  | .publishInit =>
    if σ.initDone then none
    else some { σ with pub := publishInitial σ.pub, initDone := true }
  | .doFilter nullPath origin =>
    if validRef σ.pub origin then
      some { σ with pub := (filter σ.pub nullPath origin).1 }
    else none
  | .drain =>
    let r := drainPass σ.pub σ.isDone
    some { σ with
      pub := r.2.2.1
      isDone := r.2.2.2
      drained := σ.drained ++ r.2.1 }

/-- A freshly constructed publisher. -/
def initSys : Sys :=
  {}

/-- The states reachable from a fresh publisher by API calls. -/
inductive Reach : Sys → Prop where
  | init : Reach initSys
  | step {σ σ' : Sys} {op : Op} : Reach σ → applyOp σ op = some σ' → Reach σ'

/-- Run a list of API calls, failing if any single call is rejected. -/
def runOps (σ : Sys) : List Op → Option Sys
  | [] => some σ
  | op :: ops =>
    match applyOp σ op with
    | some σ' => runOps σ' ops
    | none => none

/-- The records `filter(nullPath, origin)` prunes: the descendants of the
origin whose own path is position-by-position prefixed by the null path. -/
def removedBy (s : PubState) (np : List Seg) (origin : Option Nat)
    (x : Nat) : Prop :=
  x ∈ getDescendants s (filterChildrenOf s origin) ∧
    matchesPath (getRec s x).path np = true

instance (s : PubState) (np : List Seg) (origin : Option Nat) (x : Nat) :
    Decidable (removedBy s np origin x) := by
  unfold removedBy; infer_instance

/-- A record's parent obligation: a root record may be tracked only once
`publishInitial` ran, a child record only once its parent was drained. -/
def parentOK (σ : Sys) (r : Nat) : Prop :=
  match (getRec σ.pub r).parentContext with
  | none => σ.initDone = true
  | some p => p ∈ σ.drained

/-- The inductive invariant of the publisher state machine. -/
structure SysInv (σ : Sys) : Prop where
  relSub : ∀ r ∈ σ.pub.released, r ∈ σ.pub.pending
  drainedOut : ∀ r ∈ σ.drained, r ∉ σ.pub.pending
  pendLt : ∀ r ∈ σ.pub.pending, r < σ.pub.recs.length
  drainedLt : ∀ r ∈ σ.drained, r < σ.pub.recs.length
  preInit : σ.initDone = false → σ.pub.pending = []
  pendOK : ∀ r ∈ σ.pub.pending, parentOK σ r
  drainedOK : ∀ r ∈ σ.drained, parentOK σ r
  childLt : ∀ p, ∀ c ∈ (getRec σ.pub p).children, c < σ.pub.recs.length
  childPar : ∀ p, ∀ c ∈ (getRec σ.pub p).children,
    (getRec σ.pub c).parentContext = some p
  rootLt : ∀ c ∈ σ.pub.rootChildren, c < σ.pub.recs.length
  rootPar : ∀ c ∈ σ.pub.rootChildren, (getRec σ.pub c).parentContext = none

/-- Concrete run: root deferred record 0 with deferred child 1; the child
completes before the parent, then one drain emits the parent. -/
def wOps : List Op :=
  [ Op.prepDeferred none [Seg.idx 0] none,
    Op.prepDeferred none [Seg.idx 0, Seg.idx 1] (some 0),
    Op.completeDeferred 1 (some 5),
    Op.publishInit,
    Op.completeDeferred 0 (some 3),
    Op.drain ]

def wSys : Sys :=
  (runOps initSys wOps).getD default

/-- Run `wOps` followed by the drain that delivers the child. -/
def wSys2 : Sys :=
  (runOps initSys (wOps ++ [Op.drain])).getD default

/-- Concrete run for the hang: one pending stream record, a consumer pass
that suspends, then a cancellation that empties `pending`. -/
def hangOps : List Op :=
  [ Op.prepStream none [Seg.idx 0] none (some 5),
    Op.publishInit,
    Op.drain,
    Op.doFilter [] none ]

def hangSys : Sys :=
  (runOps initSys hangOps).getD default

/-- A source environment whose handle 5 has a `return` method that rejects
with error 7. -/
def env3 : ReturnEnv :=
  fun it => if it = 5 then some (Except.error 7) else none

/-- Concrete run: one pending stream record whose source is handle 5. -/
def retSys : Sys :=
  (runOps initSys
    [Op.prepStream none [Seg.idx 0] none (some 5), Op.publishInit]).getD
    default

/-- Concrete run for the exhausted-stream frame: stream record 0 exhausted,
deferred record 1 completed, deferred record 2 still pending. -/
def c8Ops : List Op :=
  [ Op.prepStream none [Seg.idx 2] none none,
    Op.prepDeferred none [Seg.idx 3] none,
    Op.prepDeferred none [Seg.idx 4] none,
    Op.publishInit,
    Op.setExhausted 0,
    Op.completeStream 0 none,
    Op.completeDeferred 1 (some 4) ]

def c8Sys : Sys :=
  (runOps initSys c8Ops).getD default

/-- Concrete run for filter scenarios: record 0 at path `[0]` with child 1
at path `[0, 1, 2]`, and an unrelated stream record 2 at path `[3]`. -/
def c5Ops : List Op :=
  [ Op.prepDeferred none [Seg.idx 0] none,
    Op.prepDeferred none [Seg.idx 0, Seg.idx 1, Seg.idx 2] (some 0),
    Op.prepStream none [Seg.idx 3] none (some 8),
    Op.publishInit ]

def c5Sys : Sys :=
  (runOps initSys c5Ops).getD default

theorem reach_runOps {σ σ' : Sys} {ops : List Op} (h : Reach σ)
    (hr : runOps σ ops = some σ') : Reach σ' := by
  induction ops generalizing σ with
  | nil => cases hr; exact h
  | cons op ops ih =>
    unfold runOps at hr
    cases hop : applyOp σ op with
    | none => rw [hop] at hr; cases hr
    | some σ1 => rw [hop] at hr; exact ih (Reach.step h hop) hr

namespace IncrementalPublisher

theorem mem_setAdd {l : List Nat} {x y : Nat} :
    x ∈ setAdd l y ↔ x ∈ l ∨ x = y := by
  unfold setAdd
  by_cases h : y ∈ l
  · simp only [if_pos h]
    exact ⟨Or.inl, fun hx => hx.elim id fun e => e ▸ h⟩
  · simp [if_neg h]

theorem mem_setDel {l : List Nat} {x y : Nat} :
    x ∈ setDel l y ↔ x ∈ l ∧ x ≠ y := by
  simp [setDel]

theorem nodup_setAdd {l : List Nat} {y : Nat} (h : l.Nodup) :
    (setAdd l y).Nodup := by
  unfold setAdd
  by_cases hy : y ∈ l
  · simpa [if_pos hy] using h
  · simp [if_neg hy, List.nodup_append, h, hy]

@[simp] theorem trigger_recs (s : PubState) : (trigger s).recs = s.recs := rfl

@[simp] theorem trigger_pending (s : PubState) :
    (trigger s).pending = s.pending := rfl

@[simp] theorem trigger_released (s : PubState) :
    (trigger s).released = s.released := rfl

@[simp] theorem trigger_rootChildren (s : PubState) :
    (trigger s).rootChildren = s.rootChildren := rfl

@[simp] theorem introduce_recs (s : PubState) (r : Nat) :
    (introduce s r).recs = s.recs := rfl

@[simp] theorem introduce_pending (s : PubState) (r : Nat) :
    (introduce s r).pending = setAdd s.pending r := rfl

@[simp] theorem introduce_released (s : PubState) (r : Nat) :
    (introduce s r).released = s.released := rfl

@[simp] theorem introduce_rootChildren (s : PubState) (r : Nat) :
    (introduce s r).rootChildren = s.rootChildren := rfl

@[simp] theorem release_recs (s : PubState) (r : Nat) :
    (release s r).recs = s.recs := by
  unfold release; split <;> rfl

@[simp] theorem release_pending (s : PubState) (r : Nat) :
    (release s r).pending = s.pending := by
  unfold release; split <;> rfl

@[simp] theorem release_rootChildren (s : PubState) (r : Nat) :
    (release s r).rootChildren = s.rootChildren := by
  unfold release; split <;> rfl

theorem mem_release_released {s : PubState} {r x : Nat} :
    x ∈ (release s r).released ↔
      x ∈ s.released ∨ (x = r ∧ r ∈ s.pending) := by
  unfold release
  by_cases h : r ∈ s.pending
  · simp [if_pos h, mem_setAdd, h]
  · simp [if_neg h, h]

@[simp] theorem push_recs (s : PubState) (r : Nat) :
    (push s r).recs = s.recs := rfl

@[simp] theorem push_pending (s : PubState) (r : Nat) :
    (push s r).pending = setAdd s.pending r := rfl

@[simp] theorem push_released (s : PubState) (r : Nat) :
    (push s r).released = setAdd s.released r := rfl

@[simp] theorem push_rootChildren (s : PubState) (r : Nat) :
    (push s r).rootChildren = s.rootChildren := rfl

@[simp] theorem delete_recs (s : PubState) (r : Nat) :
    (delete s r).recs = s.recs := rfl

@[simp] theorem delete_pending (s : PubState) (r : Nat) :
    (delete s r).pending = setDel s.pending r := rfl

@[simp] theorem delete_released (s : PubState) (r : Nat) :
    (delete s r).released = setDel s.released r := rfl

@[simp] theorem delete_rootChildren (s : PubState) (r : Nat) :
    (delete s r).rootChildren = s.rootChildren := rfl

@[simp] theorem modRec_pending (s : PubState) (i : Nat) (f : Rec → Rec) :
    (modRec s i f).pending = s.pending := rfl

@[simp] theorem modRec_released (s : PubState) (i : Nat) (f : Rec → Rec) :
    (modRec s i f).released = s.released := rfl

@[simp] theorem modRec_rootChildren (s : PubState) (i : Nat) (f : Rec → Rec) :
    (modRec s i f).rootChildren = s.rootChildren := rfl

@[simp] theorem modRec_recs_length (s : PubState) (i : Nat) (f : Rec → Rec) :
    (modRec s i f).recs.length = s.recs.length := by
  simp [modRec]

@[simp] theorem publish_recs (s : PubState) (r : Nat) :
    (publish s r).recs = s.recs := by
  unfold publish; split <;> rfl

@[simp] theorem publish_rootChildren (s : PubState) (r : Nat) :
    (publish s r).rootChildren = s.rootChildren := by
  unfold publish; split <;> rfl

@[simp] theorem publish_pending (s : PubState) (r : Nat) :
    (publish s r).pending = setAdd s.pending r := by
  unfold publish; split <;> rfl

theorem mem_publish_released {s : PubState} {r x : Nat} :
    x ∈ (publish s r).released ↔
      x ∈ s.released ∨ (x = r ∧ (getRec s r).isCompleted = true) := by
  unfold publish
  by_cases h : (getRec s r).isCompleted
  · simp [if_pos h, mem_setAdd, h]
  · simp [if_neg h, h]

theorem getRec_congr {s1 s2 : PubState} (h : s1.recs = s2.recs) (i : Nat) :
    getRec s1 i = getRec s2 i := by
  unfold getRec; rw [h]

theorem getRec_oob {s : PubState} {i : Nat} (h : s.recs.length ≤ i) :
    getRec s i = default := by
  unfold getRec
  rw [List.getElem?_eq_none h]
  rfl

theorem getRec_modRec_ne {s : PubState} {i j : Nat} (f : Rec → Rec)
    (h : j ≠ i) : getRec (modRec s i f) j = getRec s j := by
  unfold getRec modRec
  simp only
  rw [List.getElem?_set_ne (Ne.symm h)]

theorem getRec_modRec_self {s : PubState} {i : Nat} (f : Rec → Rec)
    (h : i < s.recs.length) : getRec (modRec s i f) i = f (getRec s i) := by
  simp [getRec, modRec, List.getElem?_set_self h]

theorem modRec_oob {s : PubState} {i : Nat} (f : Rec → Rec)
    (h : s.recs.length ≤ i) : modRec s i f = s := by
  unfold modRec
  rw [List.set_eq_of_length_le h]

theorem getRec_append_lt {s : PubState} {r0 : Rec} {j : Nat}
    (h : j < s.recs.length) :
    getRec { s with recs := s.recs ++ [r0] } j = getRec s j := by
  unfold getRec
  simp only
  rw [List.getElem?_append_left h]

theorem getRec_append_self {s : PubState} {r0 : Rec} :
    getRec { s with recs := s.recs ++ [r0] } s.recs.length = r0 := by
  unfold getRec
  simp [List.getElem?_concat_length]

theorem foldl_publish_recs (l : List Nat) (s : PubState) :
    (l.foldl publish s).recs = s.recs := by
  induction l generalizing s with
  | nil => rfl
  | cons c cs ih => simpa using ih (publish s c)

theorem foldl_publish_rootChildren (l : List Nat) (s : PubState) :
    (l.foldl publish s).rootChildren = s.rootChildren := by
  induction l generalizing s with
  | nil => rfl
  | cons c cs ih => simpa using ih (publish s c)

theorem mem_foldl_publish_pending {l : List Nat} {s : PubState} {x : Nat} :
    x ∈ (l.foldl publish s).pending ↔ x ∈ s.pending ∨ x ∈ l := by
  induction l generalizing s with
  | nil => simp
  | cons c cs ih =>
    simp only [List.foldl_cons, ih, publish_pending, mem_setAdd,
      List.mem_cons]
    tauto

theorem mem_foldl_publish_released {l : List Nat} {s : PubState} {x : Nat} :
    x ∈ (l.foldl publish s).released ↔
      x ∈ s.released ∨ (x ∈ l ∧ (getRec s x).isCompleted = true) := by
  induction l generalizing s with
  | nil => simp
  | cons c cs ih =>
    simp only [List.foldl_cons]
    rw [ih]
    rw [getRec_congr (publish_recs s c) x]
    rw [mem_publish_released]
    simp only [List.mem_cons]
    by_cases hxc : x = c
    · subst hxc; tauto
    · tauto

theorem mem_foldl_setDel {ds l : List Nat} {x : Nat} :
    x ∈ ds.foldl setDel l ↔ x ∈ l ∧ x ∉ ds := by
  induction ds generalizing l with
  | nil => simp
  | cons c cs ih =>
    simp only [List.foldl_cons, ih, mem_setDel, List.mem_cons]
    tauto

end IncrementalPublisher

namespace IncrementalPublisher

theorem mkEntry_congr {s1 s2 : PubState} (h : s1.recs = s2.recs) (r : Nat) :
    mkEntry s1 r = mkEntry s2 r := by
  unfold mkEntry; rw [getRec_congr h]

theorem publishChildren_recs (s : PubState) (r : Nat) :
    (publishChildren s r).recs = s.recs := by
  unfold publishChildren; exact foldl_publish_recs _ _

theorem publishChildren_rootChildren (s : PubState) (r : Nat) :
    (publishChildren s r).rootChildren = s.rootChildren := by
  unfold publishChildren; exact foldl_publish_rootChildren _ _

theorem girStep_recs (acc : GirAcc) (rid : Nat) :
    (girStep acc rid).s.recs = acc.s.recs := by
  simp only [girStep]
  split <;> simp [publishChildren_recs]

theorem girStep_rootChildren (acc : GirAcc) (rid : Nat) :
    (girStep acc rid).s.rootChildren = acc.s.rootChildren := by
  simp only [girStep]
  split <;> simp [publishChildren_rootChildren]

theorem mem_girStep_pending {acc : GirAcc} {rid x : Nat} :
    x ∈ (girStep acc rid).s.pending ↔
      x ∈ acc.s.pending ∨ x ∈ (getRec acc.s rid).children := by
  simp only [girStep]
  split <;> simp [publishChildren, mem_foldl_publish_pending]

theorem mem_girStep_released {acc : GirAcc} {rid x : Nat} :
    x ∈ (girStep acc rid).s.released ↔
      x ∈ acc.s.released ∨
        (x ∈ (getRec acc.s rid).children ∧
          (getRec acc.s x).isCompleted = true) := by
  simp only [girStep]
  split <;> simp [publishChildren, mem_foldl_publish_released]

theorem girStep_results (acc : GirAcc) (rid : Nat) :
    (girStep acc rid).results = acc.results ++
      (if (getRec acc.s rid).isStream &&
          (getRec acc.s rid).isCompletedAsyncIterator then []
       else [mkEntry acc.s rid]) := by
  simp only [girStep]
  have hr : getRec (publishChildren acc.s rid) rid = getRec acc.s rid :=
    getRec_congr (publishChildren_recs _ _) _
  have hm : mkEntry (publishChildren acc.s rid) rid = mkEntry acc.s rid :=
    mkEntry_congr (publishChildren_recs _ _) _
  simp only [hr, hm]
  split <;> simp

theorem girStep_encountered (acc : GirAcc) (rid : Nat) :
    (girStep acc rid).encountered =
      (acc.encountered ||
        ((getRec acc.s rid).isStream &&
          (getRec acc.s rid).isCompletedAsyncIterator)) := by
  simp only [girStep]
  have hr : getRec (publishChildren acc.s rid) rid = getRec acc.s rid :=
    getRec_congr (publishChildren_recs _ _) _
  simp only [hr]
  split <;> simp_all

theorem girFold_recs (batch : List Nat) (acc : GirAcc) :
    (batch.foldl girStep acc).s.recs = acc.s.recs := by
  induction batch generalizing acc with
  | nil => rfl
  | cons b bs ih => rw [List.foldl_cons, ih, girStep_recs]

theorem girFold_rootChildren (batch : List Nat) (acc : GirAcc) :
    (batch.foldl girStep acc).s.rootChildren = acc.s.rootChildren := by
  induction batch generalizing acc with
  | nil => rfl
  | cons b bs ih => rw [List.foldl_cons, ih, girStep_rootChildren]

theorem mem_girFold_pending {batch : List Nat} {acc : GirAcc} {x : Nat} :
    x ∈ (batch.foldl girStep acc).s.pending ↔
      x ∈ acc.s.pending ∨ ∃ b ∈ batch, x ∈ (getRec acc.s b).children := by
  induction batch generalizing acc with
  | nil => simp
  | cons b bs ih =>
    rw [List.foldl_cons, ih]
    have hrecs := girStep_recs acc b
    simp only [mem_girStep_pending, List.mem_cons]
    constructor
    · rintro ((h | h) | ⟨b1, hb1, hx⟩)
      · exact Or.inl h
      · exact Or.inr ⟨b, Or.inl rfl, h⟩
      · exact Or.inr ⟨b1, Or.inr hb1, by rwa [getRec_congr hrecs] at hx⟩
    · rintro (h | ⟨b1, rfl | hb1, hx⟩)
      · exact Or.inl (Or.inl h)
      · exact Or.inl (Or.inr hx)
      · exact Or.inr ⟨b1, hb1, by rwa [getRec_congr hrecs]⟩

theorem mem_girFold_released {batch : List Nat} {acc : GirAcc} {x : Nat} :
    x ∈ (batch.foldl girStep acc).s.released ↔
      x ∈ acc.s.released ∨
        ∃ b ∈ batch, x ∈ (getRec acc.s b).children ∧
          (getRec acc.s x).isCompleted = true := by
  induction batch generalizing acc with
  | nil => simp
  | cons b bs ih =>
    rw [List.foldl_cons, ih]
    have hrecs := girStep_recs acc b
    simp only [mem_girStep_released, List.mem_cons]
    constructor
    · rintro ((h | h) | ⟨b1, hb1, hx, hc⟩)
      · exact Or.inl h
      · exact Or.inr ⟨b, Or.inl rfl, h⟩
      · refine Or.inr ⟨b1, Or.inr hb1, ?_, ?_⟩
        · rwa [getRec_congr hrecs] at hx
        · rwa [getRec_congr hrecs] at hc
    · rintro (h | ⟨b1, rfl | hb1, hx, hc⟩)
      · exact Or.inl (Or.inl h)
      · exact Or.inl (Or.inr ⟨hx, hc⟩)
      · refine Or.inr ⟨b1, hb1, ?_, ?_⟩
        · rwa [getRec_congr hrecs]
        · rwa [getRec_congr hrecs]

theorem girFold_results (batch : List Nat) (acc : GirAcc) :
    (batch.foldl girStep acc).results = acc.results ++
      batch.filterMap (fun r =>
        if (getRec acc.s r).isStream &&
            (getRec acc.s r).isCompletedAsyncIterator then none
        else some (mkEntry acc.s r)) := by
  induction batch generalizing acc with
  | nil => simp
  | cons b bs ih =>
    rw [List.foldl_cons, ih]
    have hrecs := girStep_recs acc b
    have hfun : (fun r =>
        if (getRec (girStep acc b).s r).isStream &&
            (getRec (girStep acc b).s r).isCompletedAsyncIterator then none
        else some (mkEntry (girStep acc b).s r)) = (fun r =>
        if (getRec acc.s r).isStream &&
            (getRec acc.s r).isCompletedAsyncIterator then none
        else some (mkEntry acc.s r)) := by
      funext r
      rw [getRec_congr hrecs, mkEntry_congr hrecs]
    rw [hfun, girStep_results, List.filterMap_cons]
    by_cases h : ((getRec acc.s b).isStream &&
        (getRec acc.s b).isCompletedAsyncIterator) = true
    · simp only [if_pos h]
      simp
    · simp only [if_neg h]
      simp

theorem girFold_encountered (batch : List Nat) (acc : GirAcc) :
    (batch.foldl girStep acc).encountered =
      (acc.encountered || batch.any (fun r =>
        (getRec acc.s r).isStream &&
          (getRec acc.s r).isCompletedAsyncIterator)) := by
  induction batch generalizing acc with
  | nil => simp
  | cons b bs ih =>
    rw [List.foldl_cons, ih]
    have hrecs := girStep_recs acc b
    have hfun : (fun r =>
        (getRec (girStep acc b).s r).isStream &&
          (getRec (girStep acc b).s r).isCompletedAsyncIterator) = (fun r =>
        (getRec acc.s r).isStream &&
          (getRec acc.s r).isCompletedAsyncIterator) := by
      funext r
      rw [getRec_congr hrecs]
    rw [hfun, girStep_encountered, List.any_cons]
    cases acc.encountered <;> simp [Bool.or_assoc]

end IncrementalPublisher

namespace IncrementalPublisher

theorem getIncrementalResult_snd (s : PubState) (batch : List Nat) :
    (getIncrementalResult s batch).2 =
      (batch.foldl girStep { s := s, results := [], encountered := false }).s :=
  rfl

theorem getIncrementalResult_inv (s : PubState) (batch : List Nat) :
    (∀ es m, (getIncrementalResult s batch).1 = some (Frame.incr es m) →
      es = (batch.filterMap fun r =>
        if (getRec s r).isStream && (getRec s r).isCompletedAsyncIterator
        then none else some (mkEntry s r)) ∧ es ≠ [] ∧
        m = hasNext (getIncrementalResult s batch).2) ∧
    ((getIncrementalResult s batch).1 = some Frame.doneOnly →
      hasNext (getIncrementalResult s batch).2 = false) := by
  simp only [getIncrementalResult]
  rw [girFold_results, girFold_encountered]
  simp only [List.nil_append, Bool.false_or]
  constructor
  · intro es m h
    split at h
    · next hlen =>
      rw [Option.some.injEq, Frame.incr.injEq] at h
      refine ⟨h.1.symm, ?_, h.2.symm⟩
      rw [← h.1]
      intro hnil
      rw [hnil] at hlen
      simp at hlen
    · split at h
      · simp at h
      · simp at h
  · intro h
    split at h
    · simp at h
    · split at h
      · next henc =>
        simp only [Bool.and_eq_true, Bool.not_eq_true'] at henc
        exact henc.2
      · simp at h

theorem drainPass_done_eq (s : PubState) :
    drainPass s true = (.done, [], s, true) := rfl

theorem drainPass_batch (s : PubState) :
    (drainPass s false).2.1 = s.released := rfl

theorem drainPass_state (s : PubState) :
    (drainPass s false).2.2.1 =
      (getIncrementalResult
        { s with pending := s.released.foldl setDel s.pending, released := [] }
        s.released).2 := rfl

theorem drainPass_isDone2 (s : PubState) :
    (drainPass s false).2.2.2 = !hasNext (drainPass s false).2.2.1 := rfl

theorem drainPass_out (s : PubState) :
    (drainPass s false).1 = (match (getIncrementalResult
        { s with pending := s.released.foldl setDel s.pending, released := [] }
        s.released).1 with
      | some f => DrainOutcome.frame f
      | none => DrainOutcome.wait) := rfl

theorem matchesPath_iff_forall {t b : List Seg} :
    matchesPath t b = true ↔ ∀ i < b.length, t[i]? = b[i]? := by
  simp [matchesPath, List.all_eq_true, List.mem_range]

theorem prefix_iff_matchesPath {t b : List Seg} :
    matchesPath t b = true ↔ b <+: t := by
  rw [matchesPath_iff_forall]
  induction b generalizing t with
  | nil => simp
  | cons x bs ih =>
    cases t with
    | nil =>
      simp only [List.length_cons]
      constructor
      · intro h
        have h0 := h 0 (Nat.succ_pos _)
        simp at h0
      · intro h
        exact absurd h (by simp)
    | cons y ts =>
      rw [List.cons_prefix_cons, ← ih]
      constructor
      · intro h
        have h0 := h 0 (Nat.succ_pos _)
        simp only [List.getElem?_cons_zero, Option.some.injEq] at h0
        refine ⟨h0.symm, fun i hi => ?_⟩
        have h1 := h (i + 1) (Nat.succ_lt_succ hi)
        simpa using h1
      · rintro ⟨rfl, h⟩
        intro i hi
        cases i with
        | zero => simp
        | succ j =>
          have hj : j < bs.length := Nat.lt_of_succ_lt_succ hi
          simpa using h j hj

theorem matchesPath_nil (t : List Seg) : matchesPath t [] = true := rfl

theorem matchesPath_short {t b : List Seg} (h : t.length < b.length) :
    matchesPath t b = false := by
  cases hmp : matchesPath t b with
  | false => rfl
  | true =>
    have hp := prefix_iff_matchesPath.1 hmp
    have hle := hp.length_le
    omega

end IncrementalPublisher

namespace IncrementalPublisher

@[simp] theorem default_rec_children : (default : Rec).children = [] := rfl

@[simp] theorem getRec_delete (s : PubState) (c j : Nat) :
    getRec (delete s c) j = getRec s j := rfl

@[simp] theorem getRec_set_rootChildren (s : PubState) (l : List Nat)
    (j : Nat) : getRec { s with rootChildren := l } j = getRec s j := rfl

theorem getRec_modRec_children_fields (s : PubState) (p j : Nat)
    (g : List Nat → List Nat) :
    (getRec (modRec s p (fun r => { r with children := g r.children })) j).isStream
        = (getRec s j).isStream ∧
    (getRec (modRec s p (fun r => { r with children := g r.children })) j).path
        = (getRec s j).path ∧
    (getRec (modRec s p (fun r => { r with children := g r.children })) j).parentContext
        = (getRec s j).parentContext ∧
    (getRec (modRec s p (fun r => { r with children := g r.children })) j).asyncIterator
        = (getRec s j).asyncIterator := by
  by_cases hj : j = p
  · subst hj
    by_cases hlt : j < s.recs.length
    · rw [getRec_modRec_self _ hlt]
      exact ⟨rfl, rfl, rfl, rfl⟩
    · rw [modRec_oob _ (Nat.le_of_not_lt hlt)]
      exact ⟨rfl, rfl, rfl, rfl⟩
  · rw [getRec_modRec_ne _ hj]
    exact ⟨rfl, rfl, rfl, rfl⟩

theorem mem_children_modRec_setDel (s : PubState) (p c q x : Nat) :
    x ∈ (getRec (modRec s p
        (fun r => { r with children := setDel r.children c })) q).children ↔
      x ∈ (getRec s q).children ∧ (q = p → x ≠ c) := by
  by_cases hq : q = p
  · subst hq
    by_cases hlt : q < s.recs.length
    · rw [getRec_modRec_self _ hlt]
      simp [mem_setDel]
    · rw [modRec_oob _ (Nat.le_of_not_lt hlt)]
      rw [getRec_oob (Nat.le_of_not_lt hlt)]
      simp
  · rw [getRec_modRec_ne _ hq]
    simp [hq]

theorem filterStep_not_matches {np : List Seg} {s : PubState}
    {its : List Nat} {c : Nat}
    (h : matchesPath (getRec s c).path np = false) :
    filterStep np (s, its) c = (s, its) := by
  simp only [filterStep]
  simp [h]

theorem filterStep_matches {np : List Seg} {s : PubState} {its : List Nat}
    {c : Nat} (h : matchesPath (getRec s c).path np = true) :
    (filterStep np (s, its) c).1.recs.length = s.recs.length ∧
    (∀ j, (getRec (filterStep np (s, its) c).1 j).isStream
            = (getRec s j).isStream ∧
          (getRec (filterStep np (s, its) c).1 j).path = (getRec s j).path ∧
          (getRec (filterStep np (s, its) c).1 j).parentContext
            = (getRec s j).parentContext ∧
          (getRec (filterStep np (s, its) c).1 j).asyncIterator
            = (getRec s j).asyncIterator) ∧
    (∀ x, x ∈ (filterStep np (s, its) c).1.pending ↔
        x ∈ s.pending ∧ x ≠ c) ∧
    (∀ x, x ∈ (filterStep np (s, its) c).1.released ↔
        x ∈ s.released ∧ x ≠ c) ∧
    (∀ q x, x ∈ (getRec (filterStep np (s, its) c).1 q).children ↔
        x ∈ (getRec s q).children ∧
          ((getRec s c).parentContext = some q → x ≠ c)) ∧
    (∀ x, x ∈ (filterStep np (s, its) c).1.rootChildren ↔
        x ∈ s.rootChildren ∧
          ((getRec s c).parentContext = none → x ≠ c)) ∧
    (∀ it, it ∈ (filterStep np (s, its) c).2 ↔ it ∈ its ∨
        ((getRec s c).isStream = true ∧
          (getRec s c).asyncIterator = some it)) ∧
    (its.Nodup → (filterStep np (s, its) c).2.Nodup) := by
  rcases hpc : (getRec s c).parentContext with _ | p
  · have hstep : filterStep np (s, its) c =
        ({ delete s c with rootChildren := setDel (delete s c).rootChildren c },
         if (getRec s c).isStream then
           match (getRec s c).asyncIterator with
           | some it => setAdd its it
           | none => its
         else its) := by
      simp only [filterStep, getRec_delete, getRec_set_rootChildren, hpc]
      rw [if_pos h]
    rw [hstep]
    refine ⟨rfl, fun j => ⟨rfl, rfl, rfl, rfl⟩, ?_, ?_, ?_, ?_, ?_, ?_⟩
    · intro x
      simp [mem_setDel]
    · intro x
      simp [mem_setDel]
    · intro q x
      simp only [hpc]
      exact ⟨fun hx => ⟨hx, by simp⟩, fun hx => hx.1⟩
    · intro x
      simp [mem_setDel, hpc]
    · intro it
      cases hst : (getRec s c).isStream
      · simp [hst]
      · rcases hai : (getRec s c).asyncIterator with _ | it0
        · simp [hst, hai]
        · simp [hst, hai, mem_setAdd]
          tauto
    · intro hnd
      cases hst : (getRec s c).isStream
      · simpa [hst] using hnd
      · rcases hai : (getRec s c).asyncIterator with _ | it0
        · simpa [hst, hai] using hnd
        · simp only [hst, hai]
          simpa using nodup_setAdd hnd
  · have hstep : filterStep np (s, its) c =
        (modRec (delete s c) p
          (fun r => { r with children := setDel r.children c }),
         if (getRec (modRec (delete s c) p
             (fun r => { r with children := setDel r.children c })) c).isStream
         then
           match (getRec (modRec (delete s c) p
               (fun r => { r with children := setDel r.children c }))
               c).asyncIterator with
           | some it => setAdd its it
           | none => its
         else its) := by
      simp only [filterStep, getRec_delete, hpc]
      rw [if_pos h]
    have hfields := fun j => getRec_modRec_children_fields (delete s c) p j
      (fun ch => setDel ch c)
    rw [hstep]
    refine ⟨?_, ?_, ?_, ?_, ?_, ?_, ?_, ?_⟩
    · simp [modRec]
    · intro j
      exact hfields j
    · intro x
      simp [mem_setDel]
    · intro x
      simp [mem_setDel]
    · intro q x
      rw [mem_children_modRec_setDel]
      simp only [getRec_delete, hpc, Option.some.injEq]
      constructor
      · rintro ⟨hx, hq⟩
        exact ⟨hx, fun hpq => hq hpq.symm⟩
      · rintro ⟨hx, hq⟩
        exact ⟨hx, fun hqp => hq hqp.symm⟩
    · intro x
      simp [hpc, modRec]
    · intro it
      have hs := (hfields c).1
      have ha := (hfields c).2.2.2
      rw [hs, ha]
      simp only [getRec_delete]
      cases hst : (getRec s c).isStream
      · simp [hst]
      · rcases hai : (getRec s c).asyncIterator with _ | it0
        · simp [hst, hai]
        · simp [hst, hai, mem_setAdd]
          tauto
    · intro hnd
      have hs := (hfields c).1
      have ha := (hfields c).2.2.2
      rw [hs, ha]
      simp only [getRec_delete]
      cases hst : (getRec s c).isStream
      · simpa [hst] using hnd
      · rcases hai : (getRec s c).asyncIterator with _ | it0
        · simpa [hst, hai] using hnd
        · simp only [hst, hai]
          simpa using nodup_setAdd hnd

end IncrementalPublisher

namespace IncrementalPublisher

theorem filterFold_spec (np : List Seg) (ds : List Nat) :
    ∀ s its,
      (ds.foldl (filterStep np) (s, its)).1.recs.length = s.recs.length ∧
      (∀ j, (getRec (ds.foldl (filterStep np) (s, its)).1 j).isStream
              = (getRec s j).isStream ∧
            (getRec (ds.foldl (filterStep np) (s, its)).1 j).path
              = (getRec s j).path ∧
            (getRec (ds.foldl (filterStep np) (s, its)).1 j).parentContext
              = (getRec s j).parentContext ∧
            (getRec (ds.foldl (filterStep np) (s, its)).1 j).asyncIterator
              = (getRec s j).asyncIterator) ∧
      (∀ x, x ∈ (ds.foldl (filterStep np) (s, its)).1.pending ↔
          x ∈ s.pending ∧
            ¬(x ∈ ds ∧ matchesPath (getRec s x).path np = true)) ∧
      (∀ x, x ∈ (ds.foldl (filterStep np) (s, its)).1.released ↔
          x ∈ s.released ∧
            ¬(x ∈ ds ∧ matchesPath (getRec s x).path np = true)) ∧
      (∀ q x, x ∈ (getRec (ds.foldl (filterStep np) (s, its)).1 q).children ↔
          x ∈ (getRec s q).children ∧
            ¬(x ∈ ds ∧ matchesPath (getRec s x).path np = true ∧
              (getRec s x).parentContext = some q)) ∧
      (∀ x, x ∈ (ds.foldl (filterStep np) (s, its)).1.rootChildren ↔
          x ∈ s.rootChildren ∧
            ¬(x ∈ ds ∧ matchesPath (getRec s x).path np = true ∧
              (getRec s x).parentContext = none)) ∧
      (∀ it, it ∈ (ds.foldl (filterStep np) (s, its)).2 ↔ it ∈ its ∨
          ∃ x, x ∈ ds ∧ matchesPath (getRec s x).path np = true ∧
            (getRec s x).isStream = true ∧
            (getRec s x).asyncIterator = some it) ∧
      (its.Nodup → (ds.foldl (filterStep np) (s, its)).2.Nodup) := by
  induction ds with
  | nil =>
    intro s its
    refine ⟨rfl, fun j => ⟨rfl, rfl, rfl, rfl⟩, ?_, ?_, ?_, ?_, ?_, ?_⟩ <;>
      simp
  | cons c cs ih =>
    intro s its
    simp only [List.foldl_cons]
    by_cases hm : matchesPath (getRec s c).path np = true
    · obtain ⟨e1, e2, e3, e4, e5, e6, e7, e8⟩ :=
        @filterStep_matches np s its c hm
      obtain ⟨f1, f2, f3, f4, f5, f6, f7, f8⟩ :=
        ih (filterStep np (s, its) c).1 (filterStep np (s, its) c).2
      simp only [Prod.mk.eta] at f1 f2 f3 f4 f5 f6 f7 f8
      refine ⟨?_, ?_, ?_, ?_, ?_, ?_, ?_, ?_⟩
      · rw [f1, e1]
      · intro j
        exact ⟨(f2 j).1.trans (e2 j).1, (f2 j).2.1.trans (e2 j).2.1,
          (f2 j).2.2.1.trans (e2 j).2.2.1, (f2 j).2.2.2.trans (e2 j).2.2.2⟩
      · intro x
        rw [f3 x, (e2 x).2.1, e3 x]
        simp only [List.mem_cons]
        by_cases hxc : x = c
        · subst hxc
          simp [hm]
        · simp only [hxc, false_or]
          tauto
      · intro x
        rw [f4 x, (e2 x).2.1, e4 x]
        simp only [List.mem_cons]
        by_cases hxc : x = c
        · subst hxc
          simp [hm]
        · simp only [hxc, false_or]
          tauto
      · intro q x
        rw [f5 q x, (e2 x).2.1, (e2 x).2.2.1, e5 q x]
        simp only [List.mem_cons]
        constructor
        · rintro ⟨⟨hA, hI⟩, hneg⟩
          refine ⟨hA, ?_⟩
          rintro ⟨hor, hM, hP⟩
          rcases hor with hxc | hcs
          · subst hxc
            exact hI hP rfl
          · exact hneg ⟨hcs, hM, hP⟩
        · rintro ⟨hA, hneg⟩
          constructor
          · refine ⟨hA, ?_⟩
            intro hpcq hxc
            subst hxc
            exact hneg ⟨Or.inl rfl, hm, hpcq⟩
          · rintro ⟨hcs, hM, hP⟩
            exact hneg ⟨Or.inr hcs, hM, hP⟩
      · intro x
        rw [f6 x, (e2 x).2.1, (e2 x).2.2.1, e6 x]
        simp only [List.mem_cons]
        constructor
        · rintro ⟨⟨hA, hI⟩, hneg⟩
          refine ⟨hA, ?_⟩
          rintro ⟨hor, hM, hP⟩
          rcases hor with hxc | hcs
          · subst hxc
            exact hI hP rfl
          · exact hneg ⟨hcs, hM, hP⟩
        · rintro ⟨hA, hneg⟩
          constructor
          · refine ⟨hA, ?_⟩
            intro hpcq hxc
            subst hxc
            exact hneg ⟨Or.inl rfl, hm, hpcq⟩
          · rintro ⟨hcs, hM, hP⟩
            exact hneg ⟨Or.inr hcs, hM, hP⟩
      · intro it
        rw [f7 it, e7 it]
        have hEx : (∃ x, x ∈ cs ∧
            matchesPath (getRec (filterStep np (s, its) c).1 x).path np = true ∧
            (getRec (filterStep np (s, its) c).1 x).isStream = true ∧
            (getRec (filterStep np (s, its) c).1 x).asyncIterator = some it) ↔
            (∃ x, x ∈ cs ∧ matchesPath (getRec s x).path np = true ∧
            (getRec s x).isStream = true ∧
            (getRec s x).asyncIterator = some it) := by
          refine exists_congr fun x => ?_
          rw [(e2 x).2.1, (e2 x).1, (e2 x).2.2.2]
        rw [hEx]
        constructor
        · rintro ((h | ⟨h1, h2⟩) | ⟨x, hx, hmx, hsx, hax⟩)
          · exact Or.inl h
          · exact Or.inr ⟨c, List.mem_cons_self _ _, hm, h1, h2⟩
          · exact Or.inr ⟨x, List.mem_cons_of_mem _ hx, hmx, hsx, hax⟩
        · rintro (h | ⟨x, hx, hmx, hsx, hax⟩)
          · exact Or.inl (Or.inl h)
          · rcases List.mem_cons.1 hx with rfl | hx2
            · exact Or.inl (Or.inr ⟨hsx, hax⟩)
            · exact Or.inr ⟨x, hx2, hmx, hsx, hax⟩
      · intro hnd
        exact f8 (e8 hnd)
    · have hm2 : matchesPath (getRec s c).path np = false := by
        simpa using hm
      rw [filterStep_not_matches hm2]
      obtain ⟨f1, f2, f3, f4, f5, f6, f7, f8⟩ := ih s its
      refine ⟨f1, f2, ?_, ?_, ?_, ?_, ?_, f8⟩
      · intro x
        rw [f3 x]
        simp only [List.mem_cons]
        by_cases hxc : x = c
        · subst hxc
          simp [hm2]
        · simp only [hxc, false_or]
      · intro x
        rw [f4 x]
        simp only [List.mem_cons]
        by_cases hxc : x = c
        · subst hxc
          simp [hm2]
        · simp only [hxc, false_or]
      · intro q x
        rw [f5 q x]
        simp only [List.mem_cons]
        by_cases hxc : x = c
        · subst hxc
          simp [hm2]
        · simp only [hxc, false_or]
      · intro x
        rw [f6 x]
        simp only [List.mem_cons]
        by_cases hxc : x = c
        · subst hxc
          simp [hm2]
        · simp only [hxc, false_or]
      · intro it
        rw [f7 it]
        constructor
        · rintro (h | ⟨x, hx, hmx, hsx, hax⟩)
          · exact Or.inl h
          · exact Or.inr ⟨x, List.mem_cons_of_mem _ hx, hmx, hsx, hax⟩
        · rintro (h | ⟨x, hx, hmx, hsx, hax⟩)
          · exact Or.inl h
          · rcases List.mem_cons.1 hx with rfl | hx2
            · rw [hm2] at hmx
              cases hmx
            · exact Or.inr ⟨x, hx2, hmx, hsx, hax⟩

end IncrementalPublisher

theorem parentOK_mono {σ σ2 : Sys} {r : Nat}
    (hrec : (getRec σ2.pub r).parentContext = (getRec σ.pub r).parentContext)
    (hdr : ∀ p ∈ σ.drained, p ∈ σ2.drained)
    (hinit : σ.initDone = true → σ2.initDone = true)
    (h : parentOK σ r) : parentOK σ2 r := by
  unfold parentOK at h ⊢
  rw [hrec]
  cases hpc : (getRec σ.pub r).parentContext with
  | none => rw [hpc] at h; exact hinit h
  | some p => rw [hpc] at h; exact hdr p h

theorem parentOK_of_parent {σ2 : Sys} {x p : Nat}
    (hpc : (IncrementalPublisher.getRec σ2.pub x).parentContext = some p)
    (hp : p ∈ σ2.drained) : parentOK σ2 x := by
  unfold parentOK
  rw [hpc]
  exact hp

theorem parentOK_of_root {σ2 : Sys} {x : Nat}
    (hpc : (IncrementalPublisher.getRec σ2.pub x).parentContext = none)
    (hi : σ2.initDone = true) : parentOK σ2 x := by
  unfold parentOK
  rw [hpc]
  exact hi

theorem parentOK_cases {σ : Sys} {x : Nat} (h : parentOK σ x) :
    ((IncrementalPublisher.getRec σ.pub x).parentContext = none ∧
      σ.initDone = true) ∨
    (∃ p, (IncrementalPublisher.getRec σ.pub x).parentContext = some p ∧
      p ∈ σ.drained) := by
  unfold parentOK at h
  cases hpc : (IncrementalPublisher.getRec σ.pub x).parentContext with
  | none => rw [hpc] at h; exact Or.inl ⟨rfl, h⟩
  | some p => rw [hpc] at h; exact Or.inr ⟨p, rfl, h⟩

theorem sysInv_init : SysInv initSys := by
  refine ⟨?_, ?_, ?_, ?_, ?_, ?_, ?_, ?_, ?_, ?_, ?_⟩ <;>
    simp [initSys, IncrementalPublisher.getRec]

open IncrementalPublisher in
theorem sysInv_modRec {σ : Sys} (inv : SysInv σ) (r : Nat) (f : Rec → Rec)
    (hpar : ∀ rc, (f rc).parentContext = rc.parentContext)
    (hch : ∀ rc, (f rc).children = rc.children) :
    SysInv { σ with pub := modRec σ.pub r f } := by
  have hg : ∀ j, ((getRec (modRec σ.pub r f) j).parentContext
      = (getRec σ.pub j).parentContext) ∧
      ((getRec (modRec σ.pub r f) j).children = (getRec σ.pub j).children) := by
    intro j
    by_cases hj : j = r
    · subst hj
      by_cases hlt : j < σ.pub.recs.length
      · rw [getRec_modRec_self _ hlt]
        exact ⟨hpar _, hch _⟩
      · rw [modRec_oob _ (Nat.le_of_not_lt hlt)]
        exact ⟨rfl, rfl⟩
    · rw [getRec_modRec_ne _ hj]
      exact ⟨rfl, rfl⟩
  refine ⟨?_, ?_, ?_, ?_, ?_, ?_, ?_, ?_, ?_, ?_, ?_⟩
  · exact inv.relSub
  · exact inv.drainedOut
  · intro x hx
    simpa using inv.pendLt x hx
  · intro x hx
    simpa using inv.drainedLt x hx
  · exact inv.preInit
  · intro x hx
    exact parentOK_mono (hg x).1 (fun p hp => hp) (fun h => h) (inv.pendOK x hx)
  · intro x hx
    exact parentOK_mono (hg x).1 (fun p hp => hp) (fun h => h)
      (inv.drainedOK x hx)
  · intro p c hc
    rw [(hg p).2] at hc
    simpa using inv.childLt p c hc
  · intro p c hc
    rw [(hg p).2] at hc
    rw [(hg c).1]
    exact inv.childPar p c hc
  · intro c hc
    simpa using inv.rootLt c hc
  · intro c hc
    rw [(hg c).1]
    exact inv.rootPar c hc

open IncrementalPublisher in
theorem sysInv_extendReleased {σ σ2 : Sys} (inv : SysInv σ)
    (hpub : σ2.pub.recs = σ.pub.recs)
    (hroot : σ2.pub.rootChildren = σ.pub.rootChildren)
    (hpend : σ2.pub.pending = σ.pub.pending)
    (hrel : ∀ x ∈ σ2.pub.released, x ∈ σ.pub.released ∨ x ∈ σ.pub.pending)
    (hinit : σ2.initDone = σ.initDone) (hdr : σ2.drained = σ.drained) :
    SysInv σ2 := by
  have hget : ∀ j, getRec σ2.pub j = getRec σ.pub j :=
    fun j => getRec_congr hpub j
  refine ⟨?_, ?_, ?_, ?_, ?_, ?_, ?_, ?_, ?_, ?_, ?_⟩
  · intro x hx
    rw [hpend]
    rcases hrel x hx with h | h
    · exact inv.relSub x h
    · exact h
  · intro x hx
    rw [hdr] at hx
    rw [hpend]
    exact inv.drainedOut x hx
  · intro x hx
    rw [hpend] at hx
    rw [hpub]
    exact inv.pendLt x hx
  · intro x hx
    rw [hdr] at hx
    rw [hpub]
    exact inv.drainedLt x hx
  · intro h
    rw [hpend]
    exact inv.preInit (hinit ▸ h)
  · intro x hx
    rw [hpend] at hx
    exact parentOK_mono ((hget x) ▸ rfl) (fun p hp => hdr ▸ hp)
      (fun h => hinit ▸ h) (inv.pendOK x hx)
  · intro x hx
    rw [hdr] at hx
    exact parentOK_mono ((hget x) ▸ rfl) (fun p hp => hdr ▸ hp)
      (fun h => hinit ▸ h) (inv.drainedOK x hx)
  · intro p c hc
    rw [hget p] at hc
    rw [hpub]
    exact inv.childLt p c hc
  · intro p c hc
    rw [hget p] at hc
    rw [hget c]
    exact inv.childPar p c hc
  · intro c hc
    rw [hroot] at hc
    rw [hpub]
    exact inv.rootLt c hc
  · intro c hc
    rw [hroot] at hc
    rw [hget c]
    exact inv.rootPar c hc

open IncrementalPublisher in
theorem sysInv_release {σ : Sys} (inv : SysInv σ) (r : Nat) :
    SysInv { σ with pub := release σ.pub r } := by
  refine sysInv_extendReleased inv (release_recs _ _) (release_rootChildren _ _)
    (release_pending _ _) ?_ rfl rfl
  intro x hx
  rcases mem_release_released.1 hx with h | ⟨rfl, hp⟩
  · exact Or.inl h
  · exact Or.inr hp

open IncrementalPublisher in
theorem sysInv_completeDeferred {σ : Sys} (inv : SysInv σ) (r : Nat)
    (d : Option Nat) :
    SysInv { σ with pub := completeDeferredFragmentRecord σ.pub r d } := by
  have h1 := sysInv_modRec inv r
    (fun rc => { rc with data := d, isCompleted := true })
    (fun rc => rfl) (fun rc => rfl)
  exact sysInv_release h1 r

open IncrementalPublisher in
theorem sysInv_completeStream {σ : Sys} (inv : SysInv σ) (r : Nat)
    (it : Option (List Nat)) :
    SysInv { σ with pub := completeStreamItemsRecord σ.pub r it } := by
  have h1 := sysInv_modRec inv r
    (fun rc => { rc with items := it, isCompleted := true })
    (fun rc => rfl) (fun rc => rfl)
  exact sysInv_release h1 r

open IncrementalPublisher in
theorem sysInv_setExhausted {σ : Sys} (inv : SysInv σ) (r : Nat) :
    SysInv { σ with pub := setIsCompletedAsyncIterator σ.pub r } :=
  sysInv_modRec inv r (fun rc => { rc with isCompletedAsyncIterator := true })
    (fun rc => rfl) (fun rc => rfl)

open IncrementalPublisher in
theorem sysInv_addError {σ : Sys} (inv : SysInv σ) (r e : Nat) :
    SysInv { σ with pub := addFieldError σ.pub r e } :=
  sysInv_modRec inv r (fun rc => { rc with errors := rc.errors ++ [e] })
    (fun rc => rfl) (fun rc => rfl)

open IncrementalPublisher in
theorem sysInv_prep {σ : Sys} (inv : SysInv σ) (r0 : Rec)
    (hch0 : r0.children = []) (parent : Option Nat)
    (hpar0 : r0.parentContext = parent)
    (hv : validRef σ.pub parent = true) :
    SysInv { σ with pub := registerChild { σ.pub with recs := σ.pub.recs ++ [r0] } parent σ.pub.recs.length } := by
  rcases parent with _ | p
  · have hgetlt : ∀ j, j < σ.pub.recs.length →
        getRec (registerChild { σ.pub with recs := σ.pub.recs ++ [r0] } none σ.pub.recs.length) j = getRec σ.pub j :=
      fun j hj => getRec_append_lt hj
    have hrn :
        getRec (registerChild { σ.pub with recs := σ.pub.recs ++ [r0] } none σ.pub.recs.length) σ.pub.recs.length = r0 :=
      getRec_append_self
    have hoob : ∀ j, σ.pub.recs.length + 1 ≤ j →
        getRec (registerChild { σ.pub with recs := σ.pub.recs ++ [r0] } none σ.pub.recs.length) j = default := by
      intro j hj
      apply getRec_oob
      show (σ.pub.recs ++ [r0]).length ≤ j
      simp only [List.length_append, List.length_singleton]
      omega
    have hrootm : ∀ c,
        c ∈ (registerChild { σ.pub with recs := σ.pub.recs ++ [r0] } none σ.pub.recs.length).rootChildren ↔
        c ∈ σ.pub.rootChildren ∨ c = σ.pub.recs.length :=
      fun c => mem_setAdd
    refine ⟨?_, ?_, ?_, ?_, ?_, ?_, ?_, ?_, ?_, ?_, ?_⟩
    · exact inv.relSub
    · exact inv.drainedOut
    · intro x hx
      show x < (σ.pub.recs ++ [r0]).length
      simp only [List.length_append, List.length_singleton]
      have := inv.pendLt x hx
      omega
    · intro x hx
      show x < (σ.pub.recs ++ [r0]).length
      simp only [List.length_append, List.length_singleton]
      have := inv.drainedLt x hx
      omega
    · exact inv.preInit
    · intro x hx
      exact parentOK_mono
        (congrArg Rec.parentContext (hgetlt x (inv.pendLt x hx)))
        (fun q hq => hq) (fun h => h) (inv.pendOK x hx)
    · intro x hx
      exact parentOK_mono
        (congrArg Rec.parentContext (hgetlt x (inv.drainedLt x hx)))
        (fun q hq => hq) (fun h => h) (inv.drainedOK x hx)
    · intro q c hc
      have hc2 : c ∈ (getRec (registerChild { σ.pub with recs := σ.pub.recs ++ [r0] } none σ.pub.recs.length) q).children := hc
      show c < (σ.pub.recs ++ [r0]).length
      simp only [List.length_append, List.length_singleton]
      by_cases hq : q < σ.pub.recs.length
      · rw [hgetlt q hq] at hc2
        have := inv.childLt q c hc2
        omega
      · by_cases hq2 : q = σ.pub.recs.length
        · subst hq2
          rw [hrn, hch0] at hc2
          cases hc2
        · rw [hoob q (by omega)] at hc2
          simp at hc2
    · intro q c hc
      have hc2 : c ∈ (getRec (registerChild { σ.pub with recs := σ.pub.recs ++ [r0] } none σ.pub.recs.length) q).children := hc
      by_cases hq : q < σ.pub.recs.length
      · rw [hgetlt q hq] at hc2
        have hclt := inv.childLt q c hc2
        exact (congrArg Rec.parentContext (hgetlt c hclt)).trans
          (inv.childPar q c hc2)
      · by_cases hq2 : q = σ.pub.recs.length
        · subst hq2
          rw [hrn, hch0] at hc2
          cases hc2
        · rw [hoob q (by omega)] at hc2
          simp at hc2
    · intro c hc
      show c < (σ.pub.recs ++ [r0]).length
      simp only [List.length_append, List.length_singleton]
      rcases (hrootm c).1 hc with h | rfl
      · have := inv.rootLt c h
        omega
      · omega
    · intro c hc
      rcases (hrootm c).1 hc with h | rfl
      · exact (congrArg Rec.parentContext (hgetlt c (inv.rootLt c h))).trans
          (inv.rootPar c h)
      · exact (congrArg Rec.parentContext hrn).trans hpar0
  · have hp : p < σ.pub.recs.length := by simpa [validRef] using hv
    have hside : p < ({ σ.pub with recs := σ.pub.recs ++ [r0] } : PubState).recs.length := by
      show p < (σ.pub.recs ++ [r0]).length
      simp only [List.length_append, List.length_singleton]
      omega
    have hgetne : ∀ j, j ≠ p →
        getRec (registerChild { σ.pub with recs := σ.pub.recs ++ [r0] } (some p) σ.pub.recs.length) j =
        getRec { σ.pub with recs := σ.pub.recs ++ [r0] } j :=
      fun j hj => getRec_modRec_ne _ hj
    have hrn :
        getRec (registerChild { σ.pub with recs := σ.pub.recs ++ [r0] } (some p) σ.pub.recs.length) σ.pub.recs.length = r0 :=
      (hgetne σ.pub.recs.length (by omega)).trans getRec_append_self
    have hf : ∀ j,
        (getRec (registerChild { σ.pub with recs := σ.pub.recs ++ [r0] } (some p) σ.pub.recs.length) j).parentContext =
          (getRec { σ.pub with recs := σ.pub.recs ++ [r0] } j).parentContext :=
      fun j => (getRec_modRec_children_fields
        { σ.pub with recs := σ.pub.recs ++ [r0] } p j
        (fun ch => setAdd ch σ.pub.recs.length)).2.2.1
    have hpcEq : ∀ j, j < σ.pub.recs.length →
        (getRec (registerChild { σ.pub with recs := σ.pub.recs ++ [r0] } (some p) σ.pub.recs.length) j).parentContext =
          (getRec σ.pub j).parentContext :=
      fun j hj => (hf j).trans
        (congrArg Rec.parentContext (getRec_append_lt hj))
    have hchp : (getRec (registerChild { σ.pub with recs := σ.pub.recs ++ [r0] } (some p) σ.pub.recs.length) p).children =
        setAdd (getRec σ.pub p).children σ.pub.recs.length := by
      have h2 := getRec_modRec_self
        (fun r => { r with children := setAdd r.children σ.pub.recs.length })
        hside
      have h3 : getRec { σ.pub with recs := σ.pub.recs ++ [r0] } p = getRec σ.pub p :=
        getRec_append_lt hp
      have h4 := congrArg Rec.children h2
      rw [h3] at h4
      exact h4
    have hchm : ∀ q c,
        c ∈ (getRec (registerChild { σ.pub with recs := σ.pub.recs ++ [r0] } (some p) σ.pub.recs.length) q).children ↔
        (q = p ∧ (c ∈ (getRec σ.pub p).children ∨ c = σ.pub.recs.length)) ∨
        (q ≠ p ∧ c ∈ (getRec { σ.pub with recs := σ.pub.recs ++ [r0] } q).children) := by
      intro q c
      by_cases hqp : q = p
      · subst hqp
        rw [hchp, mem_setAdd]
        simp
      · rw [hgetne q hqp]
        simp [hqp]
    refine ⟨?_, ?_, ?_, ?_, ?_, ?_, ?_, ?_, ?_, ?_, ?_⟩
    · exact inv.relSub
    · exact inv.drainedOut
    · intro x hx
      show x < ((({ σ.pub with recs := σ.pub.recs ++ [r0] } : PubState)).recs.set p _).length
      rw [List.length_set]
      show x < (σ.pub.recs ++ [r0]).length
      simp only [List.length_append, List.length_singleton]
      have := inv.pendLt x hx
      omega
    · intro x hx
      show x < ((({ σ.pub with recs := σ.pub.recs ++ [r0] } : PubState)).recs.set p _).length
      rw [List.length_set]
      show x < (σ.pub.recs ++ [r0]).length
      simp only [List.length_append, List.length_singleton]
      have := inv.drainedLt x hx
      omega
    · exact inv.preInit
    · intro x hx
      exact parentOK_mono (hpcEq x (inv.pendLt x hx))
        (fun q hq => hq) (fun h => h) (inv.pendOK x hx)
    · intro x hx
      exact parentOK_mono (hpcEq x (inv.drainedLt x hx))
        (fun q hq => hq) (fun h => h) (inv.drainedOK x hx)
    · intro q c hc
      have hc2 := (hchm q c).1 hc
      show c < ((({ σ.pub with recs := σ.pub.recs ++ [r0] } : PubState)).recs.set p _).length
      rw [List.length_set]
      show c < (σ.pub.recs ++ [r0]).length
      simp only [List.length_append, List.length_singleton]
      rcases hc2 with ⟨rfl, h | rfl⟩ | ⟨hq, h⟩
      · have := inv.childLt q c h
        omega
      · omega
      · by_cases hql : q < σ.pub.recs.length
        · rw [getRec_append_lt hql] at h
          have := inv.childLt q c h
          omega
        · by_cases hq2 : q = σ.pub.recs.length
          · subst hq2
            rw [getRec_append_self, hch0] at h
            cases h
          · rw [getRec_oob (by
              show (σ.pub.recs ++ [r0]).length ≤ q
              simp only [List.length_append, List.length_singleton]
              omega)] at h
            simp at h
    · intro q c hc
      have hc2 := (hchm q c).1 hc
      rcases hc2 with ⟨rfl, h | rfl⟩ | ⟨hq, h⟩
      · have hclt := inv.childLt q c h
        exact (hpcEq c hclt).trans (inv.childPar q c h)
      · rw [hrn, hpar0]
      · by_cases hql : q < σ.pub.recs.length
        · rw [getRec_append_lt hql] at h
          have hclt := inv.childLt q c h
          exact (hpcEq c hclt).trans (inv.childPar q c h)
        · by_cases hq2 : q = σ.pub.recs.length
          · subst hq2
            rw [getRec_append_self, hch0] at h
            cases h
          · rw [getRec_oob (by
              show (σ.pub.recs ++ [r0]).length ≤ q
              simp only [List.length_append, List.length_singleton]
              omega)] at h
            simp at h
    · intro c hc
      show c < ((({ σ.pub with recs := σ.pub.recs ++ [r0] } : PubState)).recs.set p _).length
      rw [List.length_set]
      show c < (σ.pub.recs ++ [r0]).length
      simp only [List.length_append, List.length_singleton]
      have := inv.rootLt c hc
      omega
    · intro c hc
      exact (hpcEq c (inv.rootLt c hc)).trans (inv.rootPar c hc)

open IncrementalPublisher in
theorem sysInv_publishInit {σ : Sys} (inv : SysInv σ)
    (hni : σ.initDone = false) :
    SysInv { σ with pub := publishInitial σ.pub, initDone := true } := by
  have hrecs : (publishInitial σ.pub).recs = σ.pub.recs :=
    foldl_publish_recs _ _
  have hroot : (publishInitial σ.pub).rootChildren = σ.pub.rootChildren :=
    foldl_publish_rootChildren _ _
  have hget : ∀ j, getRec (publishInitial σ.pub) j = getRec σ.pub j :=
    fun j => getRec_congr hrecs j
  have hpendm : ∀ x, x ∈ (publishInitial σ.pub).pending ↔
      x ∈ σ.pub.pending ∨ x ∈ σ.pub.rootChildren :=
    fun x => mem_foldl_publish_pending
  have hrelm : ∀ x, x ∈ (publishInitial σ.pub).released ↔
      x ∈ σ.pub.released ∨
        (x ∈ σ.pub.rootChildren ∧ (getRec σ.pub x).isCompleted = true) :=
    fun x => mem_foldl_publish_released
  refine ⟨?_, ?_, ?_, ?_, ?_, ?_, ?_, ?_, ?_, ?_, ?_⟩
  · intro x hx
    rcases (hrelm x).1 hx with h | ⟨h, _⟩
    · exact (hpendm x).2 (Or.inl (inv.relSub x h))
    · exact (hpendm x).2 (Or.inr h)
  · intro x hx hp
    rcases (hpendm x).1 hp with h | h
    · exact inv.drainedOut x hx h
    · have h1 := inv.drainedOK x hx
      rcases parentOK_cases h1 with ⟨_, hi⟩ | ⟨q, hq, _⟩
      · rw [hni] at hi
        cases hi
      · rw [inv.rootPar x h] at hq
        cases hq
  · intro x hx
    rw [hrecs]
    rcases (hpendm x).1 hx with h | h
    · exact inv.pendLt x h
    · exact inv.rootLt x h
  · intro x hx
    rw [hrecs]
    exact inv.drainedLt x hx
  · intro h
    cases h
  · intro x hx
    rcases (hpendm x).1 hx with h | h
    · exact parentOK_mono (congrArg Rec.parentContext (hget x))
        (fun q hq => hq) (fun _ => rfl) (inv.pendOK x h)
    · exact parentOK_of_root ((hget x).symm ▸ inv.rootPar x h) rfl
  · intro x hx
    exact parentOK_mono (congrArg Rec.parentContext (hget x))
      (fun q hq => hq) (fun _ => rfl) (inv.drainedOK x hx)
  · intro q c hc
    rw [hget q] at hc
    rw [hrecs]
    exact inv.childLt q c hc
  · intro q c hc
    rw [hget q] at hc
    rw [hget c]
    exact inv.childPar q c hc
  · intro c hc
    rw [hroot] at hc
    rw [hrecs]
    exact inv.rootLt c hc
  · intro c hc
    rw [hroot] at hc
    rw [hget c]
    exact inv.rootPar c hc

open IncrementalPublisher in
theorem sysInv_filter {σ : Sys} (inv : SysInv σ) (np : List Seg)
    (origin : Option Nat) :
    SysInv { σ with pub := (filter σ.pub np origin).1 } := by
  obtain ⟨g1, g2, g3, g4, g5, g6, g7, g8⟩ := filterFold_spec np
    (getDescendants σ.pub (filterChildrenOf σ.pub origin)) σ.pub []
  have G1 : (filter σ.pub np origin).1.recs.length = σ.pub.recs.length := g1
  have G2 : ∀ j, (getRec (filter σ.pub np origin).1 j).parentContext
      = (getRec σ.pub j).parentContext := fun j => (g2 j).2.2.1
  have G3 : ∀ x, x ∈ (filter σ.pub np origin).1.pending →
      x ∈ σ.pub.pending := fun x hx => ((g3 x).1 hx).1
  have G4 : ∀ x, x ∈ (filter σ.pub np origin).1.released →
      x ∈ σ.pub.released ∧
        ¬(x ∈ getDescendants σ.pub (filterChildrenOf σ.pub origin) ∧
          matchesPath (getRec σ.pub x).path np = true) := fun x hx => (g4 x).1 hx
  have G3b : ∀ x, x ∈ σ.pub.pending →
      ¬(x ∈ getDescendants σ.pub (filterChildrenOf σ.pub origin) ∧
        matchesPath (getRec σ.pub x).path np = true) →
      x ∈ (filter σ.pub np origin).1.pending :=
    fun x hx hn => (g3 x).2 ⟨hx, hn⟩
  have G5 : ∀ q c, c ∈ (getRec (filter σ.pub np origin).1 q).children →
      c ∈ (getRec σ.pub q).children := fun q c hc => ((g5 q c).1 hc).1
  have G6 : ∀ c, c ∈ (filter σ.pub np origin).1.rootChildren →
      c ∈ σ.pub.rootChildren := fun c hc => ((g6 c).1 hc).1
  refine ⟨?_, ?_, ?_, ?_, ?_, ?_, ?_, ?_, ?_, ?_, ?_⟩
  · intro x hx
    obtain ⟨hr, hn⟩ := G4 x hx
    exact G3b x (inv.relSub x hr) hn
  · intro x hx hp
    exact inv.drainedOut x hx (G3 x hp)
  · intro x hx
    rw [G1]
    exact inv.pendLt x (G3 x hx)
  · intro x hx
    rw [G1]
    exact inv.drainedLt x hx
  · intro h
    have h0 := inv.preInit h
    refine List.eq_nil_iff_forall_not_mem.2 fun x hx => ?_
    have := G3 x hx
    rw [h0] at this
    cases this
  · intro x hx
    exact parentOK_mono (G2 x) (fun q hq => hq) (fun h => h)
      (inv.pendOK x (G3 x hx))
  · intro x hx
    exact parentOK_mono (G2 x) (fun q hq => hq) (fun h => h)
      (inv.drainedOK x hx)
  · intro q c hc
    rw [G1]
    exact inv.childLt q c (G5 q c hc)
  · intro q c hc
    rw [G2 c]
    exact inv.childPar q c (G5 q c hc)
  · intro c hc
    rw [G1]
    exact inv.rootLt c (G6 c hc)
  · intro c hc
    rw [G2 c]
    exact inv.rootPar c (G6 c hc)

open IncrementalPublisher in
theorem sysInv_drain {σ : Sys} (inv : SysInv σ) :
    SysInv { σ with
      pub := (drainPass σ.pub σ.isDone).2.2.1
      isDone := (drainPass σ.pub σ.isDone).2.2.2
      drained := σ.drained ++ (drainPass σ.pub σ.isDone).2.1 } := by
  cases hd : σ.isDone
  · -- a real pass of the drain loop body
    have hb : (drainPass σ.pub false).2.1 = σ.pub.released :=
      drainPass_batch _
    have hrecs : (drainPass σ.pub false).2.2.1.recs = σ.pub.recs :=
      girFold_recs σ.pub.released
        { s := { σ.pub with
            pending := σ.pub.released.foldl setDel σ.pub.pending
            released := [] }
          results := []
          encountered := false }
    have hroot : (drainPass σ.pub false).2.2.1.rootChildren =
        σ.pub.rootChildren :=
      girFold_rootChildren σ.pub.released
        { s := { σ.pub with
            pending := σ.pub.released.foldl setDel σ.pub.pending
            released := [] }
          results := []
          encountered := false }
    have hpend : ∀ x, x ∈ (drainPass σ.pub false).2.2.1.pending ↔
        (x ∈ σ.pub.pending ∧ x ∉ σ.pub.released) ∨
          ∃ b ∈ σ.pub.released, x ∈ (getRec σ.pub b).children := by
      intro x
      have h1 := @mem_girFold_pending σ.pub.released
        { s := { σ.pub with
            pending := σ.pub.released.foldl setDel σ.pub.pending
            released := [] }
          results := []
          encountered := false } x
      exact h1.trans (or_congr mem_foldl_setDel Iff.rfl)
    have hrel : ∀ x, x ∈ (drainPass σ.pub false).2.2.1.released ↔
        ∃ b ∈ σ.pub.released, x ∈ (getRec σ.pub b).children ∧
          (getRec σ.pub x).isCompleted = true := by
      intro x
      have h1 := @mem_girFold_released σ.pub.released
        { s := { σ.pub with
            pending := σ.pub.released.foldl setDel σ.pub.pending
            released := [] }
          results := []
          encountered := false } x
      exact h1.trans (or_iff_right (List.not_mem_nil x))
    have hBp : ∀ b ∈ σ.pub.released, b ∈ σ.pub.pending := inv.relSub
    have hBd : ∀ b ∈ σ.pub.released, b ∉ σ.drained :=
      fun b hb2 hdr => inv.drainedOut b hdr (hBp b hb2)
    have hCd : ∀ b ∈ σ.pub.released, ∀ c ∈ (getRec σ.pub b).children,
        c ∉ σ.drained := by
      intro b hb2 c hc hcd
      have h1 := inv.drainedOK c hcd
      rcases parentOK_cases h1 with ⟨hn, _⟩ | ⟨q, hq, hqd⟩
      · rw [inv.childPar b c hc] at hn
        cases hn
      · rw [inv.childPar b c hc] at hq
        have hbq := Option.some.inj hq
        subst hbq
        exact hBd b hb2 hqd
    have hCB : ∀ b ∈ σ.pub.released, ∀ c ∈ (getRec σ.pub b).children,
        c ∉ σ.pub.released := by
      intro b hb2 c hc hcB
      have h1 := inv.pendOK c (hBp c hcB)
      rcases parentOK_cases h1 with ⟨hn, _⟩ | ⟨q, hq, hqd⟩
      · rw [inv.childPar b c hc] at hn
        cases hn
      · rw [inv.childPar b c hc] at hq
        have hbq := Option.some.inj hq
        subst hbq
        exact hBd b hb2 hqd
    rw [hb]
    refine ⟨?_, ?_, ?_, ?_, ?_, ?_, ?_, ?_, ?_, ?_, ?_⟩
    · intro x hx
      obtain ⟨b, hb2, hc, hcc⟩ := (hrel x).1 hx
      exact (hpend x).2 (Or.inr ⟨b, hb2, hc⟩)
    · intro x hx hp
      rcases List.mem_append.1 hx with hxd | hxB
      · rcases (hpend x).1 hp with ⟨hpo, _⟩ | ⟨b, hbB, hc⟩
        · exact inv.drainedOut x hxd hpo
        · exact hCd b hbB x hc hxd
      · rcases (hpend x).1 hp with ⟨_, hnB⟩ | ⟨b, hbB, hc⟩
        · exact hnB hxB
        · exact hCB b hbB x hc hxB
    · intro x hx
      rw [hrecs]
      rcases (hpend x).1 hx with ⟨hpo, _⟩ | ⟨b, hbB, hc⟩
      · exact inv.pendLt x hpo
      · exact inv.childLt b x hc
    · intro x hx
      rw [hrecs]
      rcases List.mem_append.1 hx with hxd | hxB
      · exact inv.drainedLt x hxd
      · exact inv.pendLt x (hBp x hxB)
    · intro h
      have h0 := inv.preInit h
      refine List.eq_nil_iff_forall_not_mem.2 fun x hx => ?_
      rcases (hpend x).1 hx with ⟨hpo, _⟩ | ⟨b, hbB, _⟩
      · rw [h0] at hpo
        cases hpo
      · have := hBp b hbB
        rw [h0] at this
        cases this
    · intro x hx
      rcases (hpend x).1 hx with ⟨hpo, _⟩ | ⟨b, hbB, hc⟩
      · exact parentOK_mono
          (congrArg Rec.parentContext (getRec_congr hrecs x))
          (fun p hp => List.mem_append_left _ hp) (fun h => h)
          (inv.pendOK x hpo)
      · refine parentOK_of_parent
          ((congrArg Rec.parentContext (getRec_congr hrecs x)).trans
            (inv.childPar b x hc)) ?_
        exact List.mem_append_right _ hbB
    · intro x hx
      rcases List.mem_append.1 hx with hxd | hxB
      · exact parentOK_mono
          (congrArg Rec.parentContext (getRec_congr hrecs x))
          (fun p hp => List.mem_append_left _ hp) (fun h => h)
          (inv.drainedOK x hxd)
      · exact parentOK_mono
          (congrArg Rec.parentContext (getRec_congr hrecs x))
          (fun p hp => List.mem_append_left _ hp) (fun h => h)
          (inv.pendOK x (hBp x hxB))
    · intro q c hc
      rw [getRec_congr hrecs q] at hc
      rw [hrecs]
      exact inv.childLt q c hc
    · intro q c hc
      rw [getRec_congr hrecs q] at hc
      rw [getRec_congr hrecs c]
      exact inv.childPar q c hc
    · intro c hc
      rw [hroot] at hc
      rw [hrecs]
      exact inv.rootLt c hc
    · intro c hc
      rw [hroot] at hc
      rw [getRec_congr hrecs c]
      exact inv.rootPar c hc
  · -- isDone: the pass returns the done signal and changes nothing
    rw [drainPass_done_eq]
    show SysInv { σ with pub := σ.pub, isDone := true, drained := σ.drained ++ [] }
    rw [List.append_nil]
    exact ⟨inv.relSub, inv.drainedOut, inv.pendLt, inv.drainedLt,
      inv.preInit, inv.pendOK, inv.drainedOK, inv.childLt, inv.childPar,
      inv.rootLt, inv.rootPar⟩

open IncrementalPublisher in
theorem sysInv_step {σ σ' : Sys} (inv : SysInv σ) {op : Op}
    (h : applyOp σ op = some σ') : SysInv σ' := by
  cases op with
  | prepDeferred label path parent =>
    simp only [applyOp] at h
    split at h
    · next hv =>
      cases h
      exact sysInv_prep inv _ rfl parent rfl hv
    · cases h
  | prepStream label path parent src =>
    simp only [applyOp] at h
    split at h
    · next hv =>
      cases h
      exact sysInv_prep inv _ rfl parent rfl hv
    · cases h
  | completeDeferred r d =>
    simp only [applyOp] at h
    split at h
    · cases h
      exact sysInv_completeDeferred inv r d
    · cases h
  | completeStream r it =>
    simp only [applyOp] at h
    split at h
    · cases h
      exact sysInv_completeStream inv r it
    · cases h
  | setExhausted r =>
    simp only [applyOp] at h
    split at h
    · cases h
      exact sysInv_setExhausted inv r
    · cases h
  | addError r e =>
    simp only [applyOp] at h
    split at h
    · cases h
      exact sysInv_addError inv r e
    · cases h
  | publishInit =>
    simp only [applyOp] at h
    split at h
    · cases h
    · next hni =>
      cases h
      exact sysInv_publishInit inv (by simpa using hni)
  | doFilter nullPath origin =>
    simp only [applyOp] at h
    split at h
    · cases h
      exact sysInv_filter inv nullPath origin
    · cases h
  | drain =>
    simp only [applyOp] at h
    cases h
    exact sysInv_drain inv

theorem inv_reach {σ : Sys} (h : Reach σ) : SysInv σ := by
  induction h with
  | init => exact sysInv_init
  | step hr hop ih => exact sysInv_step ih hop

namespace IncrementalPublisher

theorem registerChild_pending (s : PubState) (pc : Option Nat) (id : Nat) :
    (registerChild s pc id).pending = s.pending := by
  cases pc <;> rfl

theorem hasNext_iff {s : PubState} : hasNext s = true ↔ s.pending ≠ [] := by
  simp [hasNext, List.length_pos]

theorem hasNext_eq_false {s : PubState} (h : s.pending = []) :
    hasNext s = false := by
  simp [hasNext, h]

theorem release_not_pending {s : PubState} {r : Nat} (h : r ∉ s.pending) :
    release s r = s := by
  unfold release
  rw [if_neg h]

theorem mem_drainPass_pending (s : PubState) (x : Nat) :
    x ∈ (drainPass s false).2.2.1.pending ↔
      (x ∈ s.pending ∧ x ∉ s.released) ∨
        ∃ b ∈ s.released, x ∈ (getRec s b).children := by
  have h1 := @mem_girFold_pending s.released
    { s := { s with
        pending := s.released.foldl setDel s.pending
        released := [] }
      results := []
      encountered := false } x
  exact h1.trans (or_congr mem_foldl_setDel Iff.rfl)

theorem mem_drainPass_released (s : PubState) (x : Nat) :
    x ∈ (drainPass s false).2.2.1.released ↔
      ∃ b ∈ s.released, x ∈ (getRec s b).children ∧
        (getRec s x).isCompleted = true := by
  have h1 := @mem_girFold_released s.released
    { s := { s with
        pending := s.released.foldl setDel s.pending
        released := [] }
      results := []
      encountered := false } x
  exact h1.trans (or_iff_right (List.not_mem_nil x))

end IncrementalPublisher

open IncrementalPublisher

/-- C1: the claim says that from a publisher state with `released` and
`pending` both empty a single consumer pull returns a terminating result
instead of suspending on the notify mechanism, in particular after a
cancellation empties `pending` while the consumer is blocked.  The code
does the opposite: in `hangSys` (one pending stream record, a consumer
pass that suspended, then a `filter` that removed everything) the woken
pass sets the internal done flag but falls through to
`await this._signalled` (`DrainOutcome.wait`), so the iteration never
terminates on that pull. -/
theorem c1_empty_drain_suspends :
    (runOps initSys hangOps).isSome = true ∧
    hangSys.pub.pending = [] ∧ hangSys.pub.released = [] ∧
    hangSys.isDone = false ∧ hasNext hangSys.pub = false ∧
    (drainPass hangSys.pub hangSys.isDone).1 = DrainOutcome.wait ∧
    (drainPass hangSys.pub hangSys.isDone).2.2.2 = true := by
  decide

/-- C2: a record with a parent is in `pending` or `released` only after its
parent has been drained (is in the ghost drain history), and the batch of
any drain pass contains only records whose parents were drained strictly
earlier. -/
theorem c2_parent_before_child (σ : Sys) (h : Reach σ) (r p : Nat)
    (hp : (getRec σ.pub r).parentContext = some p) :
    ((r ∈ σ.pub.pending ∨ r ∈ σ.pub.released) → p ∈ σ.drained) ∧
    (∀ out batch s2 d2,
      drainPass σ.pub σ.isDone = (out, batch, s2, d2) →
      r ∈ batch → p ∈ σ.drained) := by
  have inv := inv_reach h
  have part1 : (r ∈ σ.pub.pending ∨ r ∈ σ.pub.released) → p ∈ σ.drained := by
    intro hmem
    have hpo : parentOK σ r := by
      rcases hmem with hm | hm
      · exact inv.pendOK r hm
      · exact inv.pendOK r (inv.relSub r hm)
    rcases parentOK_cases hpo with ⟨hn, _⟩ | ⟨q, hq, hqd⟩
    · rw [hp] at hn
      cases hn
    · rw [hp] at hq
      have hpq := Option.some.inj hq
      subst hpq
      exact hqd
  refine ⟨part1, ?_⟩
  intro out batch s2 d2 heq hrb
  cases hd : σ.isDone
  · rw [hd] at heq
    have hb := drainPass_batch σ.pub
    rw [heq] at hb
    exact part1 (Or.inr (hb ▸ hrb))
  · rw [hd, drainPass_done_eq] at heq
    cases heq
    cases hrb

theorem c2_parent_before_child_witness :
    (getRec wSys.pub 1).parentContext = some 0 ∧ 1 ∈ wSys.pub.pending ∧
      0 ∈ wSys.drained :=
  ⟨by decide, by decide,
    (c2_parent_before_child wSys
      (@reach_runOps initSys wSys wOps Reach.init (by decide)) 1 0
      (by decide)).1 (Or.inl (by decide))⟩

/-- C3 counterexample: the claim says every error raised by a graceful
source termination is swallowed on all cancellation paths.  For the
consumer-initiated paths it is false: with one pending stream record whose
source handle 5 has a `return` method rejecting with error 7, `_return`
rejects with 7 instead of resolving done, and `_throw 9` surfaces 7
instead of 9. -/
theorem c3_return_error_surfaces :
    iterReturnResult env3 retSys.pub = Except.error 7 ∧
    iterThrowError env3 retSys.pub 9 = 7 := by
  constructor
  · rfl
  · rfl

/-- C3 amended: only the filter engine swallows source-termination errors
(each collected iterator's `return?.()` is chained with a catch that
ignores the rejection); the consumer-initiated `return`/`throw` paths
await `returnStreamIterators()` unprotected, so a rejection there is
surfaced to the caller, replacing even the error given to `throw`. -/
theorem c3_cancel_error_swallowed_only_in_filter (env : ReturnEnv)
    (s : PubState) (its : List Nat) :
    (∀ o ∈ filterCancelOutcomes env its, o = Except.ok ()) ∧
    (∀ e, promiseAll (pendingReturnOutcomes env s) = Except.error e →
      iterReturnResult env s = Except.error e ∧
      ∀ err, iterThrowError env s err = e) ∧
    (promiseAll (pendingReturnOutcomes env s) = Except.ok () →
      iterReturnResult env s = Except.ok true ∧
      ∀ err, iterThrowError env s err = err) := by
  refine ⟨?_, ?_, ?_⟩
  · intro o ho
    simp only [filterCancelOutcomes, List.mem_filterMap] at ho
    obtain ⟨it, hit, heq⟩ := ho
    cases he : env it with
    | none =>
      rw [he] at heq
      cases heq
    | some r =>
      rw [he] at heq
      simp only [Option.map_some'] at heq
      cases heq
      cases r with
      | ok u => rfl
      | error e => rfl
  · intro e hpe
    unfold iterReturnResult iterThrowError
    rw [hpe]
    exact ⟨rfl, fun err => rfl⟩
  · intro hpe
    unfold iterReturnResult iterThrowError
    rw [hpe]
    exact ⟨rfl, fun err => rfl⟩

theorem c3_cancel_error_swallowed_only_in_filter_witness :
    iterReturnResult env3 retSys.pub = Except.error 7 ∧
    iterThrowError env3 retSys.pub 9 = 7 :=
  ⟨((c3_cancel_error_swallowed_only_in_filter env3 retSys.pub []).2.1 7
      rfl).1,
   ((c3_cancel_error_swallowed_only_in_filter env3 retSys.pub []).2.1 7
      rfl).2 9⟩

/-- C4: `hasNext()` is true exactly when `pending` is non-empty; once a
reachable state has `publishInitial` behind it and `hasNext()` false, no
API call makes `hasNext()` true again (so the true-to-false transition
happens at most once); a frame reporting `hasNext : false` (or the pure
has-next-false frame) sets the consumer's done flag, and every pull after
the done flag returns the done signal, so no frame follows a pull that
reported `hasNext` false. -/
theorem c4_hasNext_terminal (σ σ' : Sys) (op : Op) (h : Reach σ) :
    (∀ s : PubState, hasNext s = true ↔ s.pending ≠ []) ∧
    (σ.initDone = true → hasNext σ.pub = false → applyOp σ op = some σ' →
      hasNext σ'.pub = false ∧ σ'.initDone = true) ∧
    (∀ es m batch s2 d2,
      drainPass σ.pub σ.isDone = (.frame (Frame.incr es m), batch, s2, d2) →
      m = false → d2 = true) ∧
    (∀ batch s2 d2,
      drainPass σ.pub σ.isDone = (.frame Frame.doneOnly, batch, s2, d2) →
      d2 = true) ∧
    (∀ s : PubState, drainPass s true = (.done, [], s, true)) := by
  have inv := inv_reach h
  refine ⟨fun s => hasNext_iff, ?_, ?_, ?_, fun s => drainPass_done_eq s⟩
  · intro hi hf hap
    have hp0 : σ.pub.pending = [] := by
      by_contra hne
      rw [hasNext_iff.2 hne] at hf
      cases hf
    cases op with
    | prepDeferred label path parent =>
      simp only [applyOp] at hap
      split at hap
      · cases hap
        refine ⟨hasNext_eq_false ?_, hi⟩
        exact (registerChild_pending _ _ _).trans hp0
      · cases hap
    | prepStream label path parent src =>
      simp only [applyOp] at hap
      split at hap
      · cases hap
        refine ⟨hasNext_eq_false ?_, hi⟩
        exact (registerChild_pending _ _ _).trans hp0
      · cases hap
    | completeDeferred r d =>
      simp only [applyOp] at hap
      split at hap
      · cases hap
        refine ⟨hasNext_eq_false ?_, hi⟩
        show (release (modRec σ.pub r
          (fun rc => { rc with data := d, isCompleted := true })) r).pending = []
        rw [release_pending, modRec_pending]
        exact hp0
      · cases hap
    | completeStream r it =>
      simp only [applyOp] at hap
      split at hap
      · cases hap
        refine ⟨hasNext_eq_false ?_, hi⟩
        show (release (modRec σ.pub r
          (fun rc => { rc with items := it, isCompleted := true })) r).pending = []
        rw [release_pending, modRec_pending]
        exact hp0
      · cases hap
    | setExhausted r =>
      simp only [applyOp] at hap
      split at hap
      · cases hap
        exact ⟨hasNext_eq_false hp0, hi⟩
      · cases hap
    | addError r e =>
      simp only [applyOp] at hap
      split at hap
      · cases hap
        exact ⟨hasNext_eq_false hp0, hi⟩
      · cases hap
    | publishInit =>
      simp only [applyOp] at hap
      rw [hi] at hap
      cases hap
    | doFilter nullPath origin =>
      simp only [applyOp] at hap
      split at hap
      · cases hap
        refine ⟨hasNext_eq_false ?_, hi⟩
        obtain ⟨_, _, g3, _⟩ := filterFold_spec nullPath
          (getDescendants σ.pub (filterChildrenOf σ.pub origin)) σ.pub []
        refine List.eq_nil_iff_forall_not_mem.2 fun x hx => ?_
        have hxp := ((g3 x).1 hx).1
        rw [hp0] at hxp
        cases hxp
      · cases hap
    | drain =>
      simp only [applyOp] at hap
      cases hap
      refine ⟨hasNext_eq_false ?_, hi⟩
      cases hd : σ.isDone
      · refine List.eq_nil_iff_forall_not_mem.2 fun x hx => ?_
        rcases (mem_drainPass_pending σ.pub x).1 hx with ⟨hxp, _⟩ | ⟨b, hbB, _⟩
        · rw [hp0] at hxp
          cases hxp
        · have hbp := inv.relSub b hbB
          rw [hp0] at hbp
          cases hbp
      · exact hp0
  · intro es m batch s2 d2 heq hm
    cases hd : σ.isDone
    · rw [hd] at heq
      have h1 : (drainPass σ.pub false).1 =
          DrainOutcome.frame (Frame.incr es m) := by rw [heq]
      have h2 : (drainPass σ.pub false).2.2.2 = d2 := by rw [heq]
      rw [drainPass_out] at h1
      cases hg : (getIncrementalResult
          { σ.pub with
            pending := σ.pub.released.foldl setDel σ.pub.pending
            released := [] } σ.pub.released).1 with
      | none =>
        rw [hg] at h1
        cases h1
      | some f =>
        rw [hg] at h1
        have hf : f = Frame.incr es m := by
          cases h1
          rfl
        subst hf
        have hinv := (getIncrementalResult_inv
          { σ.pub with
            pending := σ.pub.released.foldl setDel σ.pub.pending
            released := [] } σ.pub.released).1 es m hg
        rw [drainPass_isDone2, drainPass_state] at h2
        rw [← h2, ← hinv.2.2, hm]
        rfl
    · rw [hd, drainPass_done_eq] at heq
      cases heq
  · intro batch s2 d2 heq
    cases hd : σ.isDone
    · rw [hd] at heq
      have h1 : (drainPass σ.pub false).1 = DrainOutcome.frame Frame.doneOnly := by
        rw [heq]
      have h2 : (drainPass σ.pub false).2.2.2 = d2 := by rw [heq]
      rw [drainPass_out] at h1
      cases hg : (getIncrementalResult
          { σ.pub with
            pending := σ.pub.released.foldl setDel σ.pub.pending
            released := [] } σ.pub.released).1 with
      | none =>
        rw [hg] at h1
        cases h1
      | some f =>
        rw [hg] at h1
        have hf : f = Frame.doneOnly := by
          cases h1
          rfl
        subst hf
        have hinv := (getIncrementalResult_inv
          { σ.pub with
            pending := σ.pub.released.foldl setDel σ.pub.pending
            released := [] } σ.pub.released).2 hg
        rw [drainPass_isDone2, drainPass_state] at h2
        rw [← h2, hinv]
        rfl
    · rw [hd, drainPass_done_eq] at heq
      cases heq

theorem c4_hasNext_terminal_witness :
    hasNext wSys2.pub = false ∧ wSys2.initDone = true ∧
    hasNext ((runOps wSys2 [Op.completeDeferred 0 (some 9)]).getD
      default).pub = false := by
  refine ⟨by decide, by decide, ?_⟩
  exact (c4_hasNext_terminal wSys2
      ((runOps wSys2 [Op.completeDeferred 0 (some 9)]).getD default)
      (Op.completeDeferred 0 (some 9))
      (@reach_runOps initSys wSys2 (wOps ++ [Op.drain]) Reach.init
        (by decide))).2.1 (by decide) (by decide) (by decide) |>.1

/-- C5: `filter(nullPath, origin)` removes from `pending` and `released`,
and detaches from the parent's children set (or the root set), exactly the
traversed descendants of the origin whose own path is position-by-position
prefixed by the null path; untouched records keep their membership; the
path test is exactly the list-prefix relation, so a record whose path is
shorter than the null path is never pruned. -/
theorem c5_filter_prefix_semantics (s : PubState) (np : List Seg)
    (origin : Option Nat) :
    (∀ x, x ∈ (filter s np origin).1.pending ↔
      x ∈ s.pending ∧ ¬ removedBy s np origin x) ∧
    (∀ x, x ∈ (filter s np origin).1.released ↔
      x ∈ s.released ∧ ¬ removedBy s np origin x) ∧
    (∀ x q, removedBy s np origin x →
      (getRec s x).parentContext = some q →
      x ∉ (getRec (filter s np origin).1 q).children) ∧
    (∀ x, removedBy s np origin x → (getRec s x).parentContext = none →
      x ∉ (filter s np origin).1.rootChildren) ∧
    (∀ q x, ¬ removedBy s np origin x →
      (x ∈ (getRec (filter s np origin).1 q).children ↔
        x ∈ (getRec s q).children)) ∧
    (∀ x, ¬ removedBy s np origin x →
      (x ∈ (filter s np origin).1.rootChildren ↔ x ∈ s.rootChildren)) ∧
    (∀ t b, matchesPath t b = true ↔ b <+: t) ∧
    (∀ t b, t.length < b.length → matchesPath t b = false) := by
  obtain ⟨g1, g2, g3, g4, g5, g6, g7, g8⟩ := filterFold_spec np
    (getDescendants s (filterChildrenOf s origin)) s []
  refine ⟨fun x => g3 x, fun x => g4 x, ?_, ?_, ?_, ?_,
    fun t b => prefix_iff_matchesPath, fun t b hl => matchesPath_short hl⟩
  · intro x q hrem hpc hmem
    exact ((g5 q x).1 hmem).2 ⟨hrem.1, hrem.2, hpc⟩
  · intro x hrem hpc hmem
    exact ((g6 x).1 hmem).2 ⟨hrem.1, hrem.2, hpc⟩
  · intro q x hnrem
    constructor
    · intro hm
      exact ((g5 q x).1 hm).1
    · intro hm
      refine (g5 q x).2 ⟨hm, ?_⟩
      rintro ⟨h1, h2, _⟩
      exact hnrem ⟨h1, h2⟩
  · intro x hnrem
    constructor
    · intro hm
      exact ((g6 x).1 hm).1
    · intro hm
      refine (g6 x).2 ⟨hm, ?_⟩
      rintro ⟨h1, h2, _⟩
      exact hnrem ⟨h1, h2⟩

theorem c5_filter_prefix_semantics_witness :
    removedBy c5Sys.pub [Seg.idx 0, Seg.idx 1] none 1 ∧
    (¬ removedBy c5Sys.pub [Seg.idx 0, Seg.idx 1] none 0) ∧
    1 ∉ (getRec (filter c5Sys.pub [Seg.idx 0, Seg.idx 1] none).1 0).children ∧
    0 ∈ (filter c5Sys.pub [Seg.idx 0, Seg.idx 1] none).1.pending ∧
    2 ∈ (filter c5Sys.pub [Seg.idx 0, Seg.idx 1] none).1.pending :=
  ⟨by decide, by decide,
   (c5_filter_prefix_semantics c5Sys.pub [Seg.idx 0, Seg.idx 1] none).2.2.1 1 0
     (by decide) (by decide),
   ((c5_filter_prefix_semantics c5Sys.pub [Seg.idx 0, Seg.idx 1] none).1 0).2
     ⟨by decide, by decide⟩,
   ((c5_filter_prefix_semantics c5Sys.pub [Seg.idx 0, Seg.idx 1] none).1 2).2
     ⟨by decide, by decide⟩⟩

/-- C6: one `filter` call collects the live stream sources of the removed
descendants into a set: the collected list has no duplicates, contains
exactly the `asyncIterator` handles of removed stream records, each handle
occurs exactly once however many removed records share it, and the
`return()` calls actually issued (handles whose iterator has a `return`
method) also hit each handle exactly once. -/
theorem c6_terminate_once (s : PubState) (np : List Seg)
    (origin : Option Nat) (env : ReturnEnv) (it : Nat) :
    (filter s np origin).2.Nodup ∧
    (it ∈ (filter s np origin).2 ↔
     ∃ x, removedBy s np origin x ∧ (getRec s x).isStream = true ∧
       (getRec s x).asyncIterator = some it) ∧
    ((filter s np origin).2.count it =
      if it ∈ (filter s np origin).2 then 1 else 0) ∧
    ((filterReturnCalls env (filter s np origin).2).count it =
      if it ∈ (filter s np origin).2 ∧ (env it).isSome = true then 1
      else 0) := by
  obtain ⟨g1, g2, g3, g4, g5, g6, g7, g8⟩ := filterFold_spec np
    (getDescendants s (filterChildrenOf s origin)) s []
  have hnd : (filter s np origin).2.Nodup := g8 List.nodup_nil
  have hmem : ∀ j, j ∈ (filter s np origin).2 ↔
      ∃ x, removedBy s np origin x ∧ (getRec s x).isStream = true ∧
        (getRec s x).asyncIterator = some j := by
    intro j
    refine ((g7 j).trans (or_iff_right (List.not_mem_nil j))).trans ?_
    refine exists_congr fun x => ?_
    unfold removedBy
    tauto
  refine ⟨hnd, hmem it, ?_, ?_⟩
  · by_cases hin : it ∈ (filter s np origin).2
    · rw [if_pos hin]
      exact List.count_eq_one_of_mem hnd hin
    · rw [if_neg hin]
      exact List.count_eq_zero_of_not_mem hin
  · have hnd2 : (filterReturnCalls env (filter s np origin).2).Nodup :=
      List.Nodup.filter _ hnd
    have hmem2 : it ∈ filterReturnCalls env (filter s np origin).2 ↔
        it ∈ (filter s np origin).2 ∧ (env it).isSome = true := by
      simp [filterReturnCalls, List.mem_filter]
    by_cases hin : it ∈ (filter s np origin).2 ∧ (env it).isSome = true
    · rw [if_pos hin]
      exact List.count_eq_one_of_mem hnd2 (hmem2.2 hin)
    · rw [if_neg hin]
      refine List.count_eq_zero_of_not_mem fun hm => hin (hmem2.1 hm)

/-- C7: a drain batch never reappears in the `released` set it leaves
behind, so an immediate second pass can emit no record of the first batch;
every `incremental` frame carries at least one entry, and the pure
has-next-false frame is only produced when `hasNext()` is false after the
pass. -/
theorem c7_drain_idempotent (σ : Sys) (h : Reach σ) (out : DrainOutcome)
    (batch : List Nat) (s2 : PubState) (d2 : Bool)
    (heq : drainPass σ.pub σ.isDone = (out, batch, s2, d2)) :
    (∀ r ∈ batch, r ∉ s2.released) ∧
    (∀ es m, out = DrainOutcome.frame (Frame.incr es m) → es ≠ []) ∧
    (out = DrainOutcome.frame Frame.doneOnly → hasNext s2 = false) := by
  have inv := inv_reach h
  cases hd : σ.isDone
  · rw [hd] at heq
    have hb : batch = σ.pub.released := by
      have h1 := drainPass_batch σ.pub
      rw [heq] at h1
      exact h1
    have hs : s2 = (drainPass σ.pub false).2.2.1 := by rw [heq]
    have hout : out = (drainPass σ.pub false).1 := by rw [heq]
    refine ⟨?_, ?_, ?_⟩
    · intro r hrB hrRel
      rw [hs] at hrRel
      obtain ⟨b, hbB, hc, _⟩ := (mem_drainPass_released σ.pub r).1 hrRel
      rw [hb] at hrB
      have hpo := inv.pendOK r (inv.relSub r hrB)
      rcases parentOK_cases hpo with ⟨hn, _⟩ | ⟨q, hq, hqd⟩
      · rw [inv.childPar b r hc] at hn
        cases hn
      · rw [inv.childPar b r hc] at hq
        have hbq := Option.some.inj hq
        subst hbq
        exact inv.drainedOut b hqd (inv.relSub b hbB)
    · intro es m hfr
      rw [hout, drainPass_out] at hfr
      cases hg : (getIncrementalResult
          { σ.pub with
            pending := σ.pub.released.foldl setDel σ.pub.pending
            released := [] } σ.pub.released).1 with
      | none =>
        rw [hg] at hfr
        cases hfr
      | some f =>
        rw [hg] at hfr
        have hf : f = Frame.incr es m := by
          cases hfr
          rfl
        subst hf
        exact ((getIncrementalResult_inv
          { σ.pub with
            pending := σ.pub.released.foldl setDel σ.pub.pending
            released := [] } σ.pub.released).1 es m hg).2.1
    · intro hfr
      rw [hout, drainPass_out] at hfr
      cases hg : (getIncrementalResult
          { σ.pub with
            pending := σ.pub.released.foldl setDel σ.pub.pending
            released := [] } σ.pub.released).1 with
      | none =>
        rw [hg] at hfr
        cases hfr
      | some f =>
        rw [hg] at hfr
        have hf : f = Frame.doneOnly := by
          cases hfr
          rfl
        subst hf
        have hinv := (getIncrementalResult_inv
          { σ.pub with
            pending := σ.pub.released.foldl setDel σ.pub.pending
            released := [] } σ.pub.released).2 hg
        rw [hs, drainPass_state]
        exact hinv
  · rw [hd, drainPass_done_eq] at heq
    cases heq
    refine ⟨?_, ?_, ?_⟩
    · intro r hr
      cases hr
    · intro es m hfr
      cases hfr
    · intro hfr
      cases hfr

theorem c7_drain_idempotent_witness :
    1 ∈ (drainPass wSys.pub wSys.isDone).2.1 ∧
    1 ∉ (drainPass wSys.pub wSys.isDone).2.2.1.released :=
  ⟨by decide,
   (c7_drain_idempotent wSys
     (@reach_runOps initSys wSys wOps Reach.init (by decide))
     (drainPass wSys.pub wSys.isDone).1
     (drainPass wSys.pub wSys.isDone).2.1
     (drainPass wSys.pub wSys.isDone).2.2.1
     (drainPass wSys.pub wSys.isDone).2.2.2 rfl).1 1 (by decide)⟩

/-- C8: the loop of `_getIncrementalResult` yields exactly one entry per
batch record except exhausted stream records, which contribute nothing (no
path, label, errors or items); the `hasNext` field of an emitted
`incremental` frame is true exactly when `pending` is still non-empty
after the drain. -/
theorem c8_exhausted_no_entry (s : PubState) (batch : List Nat) :
    ((batch.foldl girStep { s := s, results := [], encountered := false }).results =
      batch.filterMap (fun r =>
        if (getRec s r).isStream && (getRec s r).isCompletedAsyncIterator
        then none else some (mkEntry s r))) ∧
    (∀ es m, (getIncrementalResult s batch).1 = some (Frame.incr es m) →
      es = batch.filterMap (fun r =>
        if (getRec s r).isStream && (getRec s r).isCompletedAsyncIterator
        then none else some (mkEntry s r)) ∧
      (m = true ↔ (getIncrementalResult s batch).2.pending ≠ [])) := by
  constructor
  · have h1 := girFold_results batch
      { s := s, results := [], encountered := false }
    simpa using h1
  · intro es m hm
    have h1 := (getIncrementalResult_inv s batch).1 es m hm
    refine ⟨h1.1, ?_⟩
    rw [h1.2.2]
    exact hasNext_iff

theorem c8_exhausted_no_entry_witness :
    (getIncrementalResult c8Sys.pub c8Sys.pub.released).1 =
      some (Frame.incr [mkEntry c8Sys.pub 1] true) ∧
    [mkEntry c8Sys.pub 1] = c8Sys.pub.released.filterMap (fun r =>
      if (getRec c8Sys.pub r).isStream &&
          (getRec c8Sys.pub r).isCompletedAsyncIterator
      then none else some (mkEntry c8Sys.pub r)) ∧
    (getIncrementalResult c8Sys.pub c8Sys.pub.released).2.pending ≠ [] := by
  refine ⟨by decide, ?_, ?_⟩
  · exact ((c8_exhausted_no_entry c8Sys.pub c8Sys.pub.released).2
      [mkEntry c8Sys.pub 1] true (by decide)).1
  · exact (((c8_exhausted_no_entry c8Sys.pub c8Sys.pub.released).2
      [mkEntry c8Sys.pub 1] true (by decide)).2).1 rfl

/-- C9: a record is captured in at most one drain batch over a session:
the ghost drain history is disjoint from `pending` (hence from every later
batch, since batches are subsets of `released ⊆ pending`), and a
completion call on a record no longer in `pending` (already drained or
removed by filter) leaves both tracker sets unchanged, so it can never be
emitted again. -/
theorem c9_at_most_once (σ : Sys) (h : Reach σ) :
    (∀ r ∈ σ.drained, r ∉ σ.pub.pending) ∧
    (∀ out batch s2 d2, drainPass σ.pub σ.isDone = (out, batch, s2, d2) →
      ∀ r ∈ batch, r ∉ σ.drained) ∧
    (∀ r d, r ∉ σ.pub.pending →
      (completeDeferredFragmentRecord σ.pub r d).pending = σ.pub.pending ∧
      (completeDeferredFragmentRecord σ.pub r d).released =
        σ.pub.released) ∧
    (∀ r it, r ∉ σ.pub.pending →
      (completeStreamItemsRecord σ.pub r it).pending = σ.pub.pending ∧
      (completeStreamItemsRecord σ.pub r it).released = σ.pub.released) := by
  have inv := inv_reach h
  refine ⟨inv.drainedOut, ?_, ?_, ?_⟩
  · intro out batch s2 d2 heq r hrB hrd
    cases hd : σ.isDone
    · rw [hd] at heq
      have hb : batch = σ.pub.released := by
        have h1 := drainPass_batch σ.pub
        rw [heq] at h1
        exact h1
      rw [hb] at hrB
      exact inv.drainedOut r hrd (inv.relSub r hrB)
    · rw [hd, drainPass_done_eq] at heq
      cases heq
      cases hrB
  · intro r d hnp
    have hmp : r ∉ (modRec σ.pub r
        (fun rc => { rc with data := d, isCompleted := true })).pending := by
      rw [modRec_pending]
      exact hnp
    constructor
    · show (release _ r).pending = σ.pub.pending
      rw [release_not_pending hmp, modRec_pending]
    · show (release _ r).released = σ.pub.released
      rw [release_not_pending hmp, modRec_released]
  · intro r it hnp
    have hmp : r ∉ (modRec σ.pub r
        (fun rc => { rc with items := it, isCompleted := true })).pending := by
      rw [modRec_pending]
      exact hnp
    constructor
    · show (release _ r).pending = σ.pub.pending
      rw [release_not_pending hmp, modRec_pending]
    · show (release _ r).released = σ.pub.released
      rw [release_not_pending hmp, modRec_released]

theorem c9_at_most_once_witness :
    0 ∈ wSys2.drained ∧ 0 ∉ wSys2.pub.pending ∧
    (completeDeferredFragmentRecord wSys2.pub 0 (some 9)).released =
      wSys2.pub.released :=
  ⟨by decide,
   (c9_at_most_once wSys2
     (@reach_runOps initSys wSys2 (wOps ++ [Op.drain]) Reach.init
       (by decide))).1 0 (by decide),
   ((c9_at_most_once wSys2
     (@reach_runOps initSys wSys2 (wOps ++ [Op.drain]) Reach.init
       (by decide))).2.2.1 0 (some 9)
     ((c9_at_most_once wSys2
       (@reach_runOps initSys wSys2 (wOps ++ [Op.drain]) Reach.init
         (by decide))).1 0 (by decide))).2⟩

/-- C10: with an empty null path the position-by-position prefix test is
vacuously true, so `filter` removes every traversed descendant of the
origin from both tracker sets and detaches it from its parent's children
set (or the root set). -/
theorem c10_empty_path_removes_all (s : PubState) (origin : Option Nat)
    (x : Nat) (h : x ∈ getDescendants s (filterChildrenOf s origin)) :
    removedBy s [] origin x ∧
    x ∉ (filter s [] origin).1.pending ∧
    x ∉ (filter s [] origin).1.released ∧
    (∀ q, (getRec s x).parentContext = some q →
      x ∉ (getRec (filter s [] origin).1 q).children) ∧
    ((getRec s x).parentContext = none →
      x ∉ (filter s [] origin).1.rootChildren) := by
  obtain ⟨g1, g2, g3, g4, g5, g6, g7, g8⟩ := filterFold_spec []
    (getDescendants s (filterChildrenOf s origin)) s []
  refine ⟨⟨h, matchesPath_nil _⟩, ?_, ?_, ?_, ?_⟩
  · intro hx
    exact ((g3 x).1 hx).2 ⟨h, matchesPath_nil _⟩
  · intro hx
    exact ((g4 x).1 hx).2 ⟨h, matchesPath_nil _⟩
  · intro q hpc hx
    exact ((g5 q x).1 hx).2 ⟨h, matchesPath_nil _, hpc⟩
  · intro hpc hx
    exact ((g6 x).1 hx).2 ⟨h, matchesPath_nil _, hpc⟩

theorem c10_empty_path_removes_all_witness :
    0 ∈ getDescendants c5Sys.pub (filterChildrenOf c5Sys.pub none) ∧
    0 ∉ (filter c5Sys.pub [] none).1.pending ∧
    0 ∉ (filter c5Sys.pub [] none).1.rootChildren :=
  ⟨by decide,
   (c10_empty_path_removes_all c5Sys.pub none 0 (by decide)).2.1,
   (c10_empty_path_removes_all c5Sys.pub none 0 (by decide)).2.2.2.2
     (by decide)⟩
